import Mathlib

/-!
# Verification of the jax-js tracing core

This file embeds the tracing core of the jax-js repository
(`src/library/numpy-linalg.ts`, autodidax-style interpreter stack) in Lean 4
and proves properties of its data model and operations: abstract-value
equality, `bind`/`findTopTrace`/`fullRaise` dispatch, the trace-stack
discipline, the `reduce_sum` wrapper, the eager `broadcast` rule, and the
jaxpr IR (`makeJaxpr`, printing, `flatten`) whose behaviour is fixed by the
repository's golden tests (`src/test/tracing.test.ts`).

Machine integers do not occur: the embedded quantities are shapes, levels and
list indices (JavaScript numbers used as small naturals) and tensor payloads
(modelled as integers, since no claim depends on floating-point rounding).
-/

set_option linter.unusedVariables false

namespace JaxJS

/-! ## Data types shared by the embedding -/

/-- The dtypes of the `DType` enum in the source
(`float32`, `int32`, `bool`, `complex64`). -/
inductive DTy where
  | float32
  | int32
  | boolean
  | complex64
  deriving DecidableEq, Repr

/-! ## C1: `ShapedArray.equals`

`ShapedArray` carries `shape` and `dtype`; `ConcreteArray extends ShapedArray`
adds a captured value.  The embedding represents the abstraction level
(`ShapedArray` vs `ConcreteArray`, i.e. `this.constructor`) as a Boolean flag;
a JavaScript reference comparison `this === other` is modelled as structural
equality (two structurally different objects are never reference-equal, and
the branch is only an early-exit shortcut). -/

/-- Abstract value: `ShapedArray` / `ConcreteArray` from the source.
`isConcrete` records which of the two constructors built the object. -/
structure ShapedArray where
  isConcrete : Bool
  shape : List Nat
  dtype : DTy
  deriving DecidableEq, Repr

/-- Function `ShapedArray.equals` from the source:
`this === other || (this.constructor === other.constructor &&
this.shape.length === other.shape.length &&
this.shape.every((d, i) => d === other.shape[i]))`.
Note that `dtype` is not inspected. -/
def ShapedArray.equals (a b : ShapedArray) : Bool :=
  decide (a = b) ||
    (a.isConcrete == b.isConcrete &&
      a.shape.length == b.shape.length &&
      (List.range a.shape.length).all fun i => a.shape.getD i 0 == b.shape.getD i 0)

theorem list_eq_of_length_getD {l₁ l₂ : List Nat}
    (hlen : l₁.length = l₂.length)
    (h : ∀ i, i < l₁.length → l₁.getD i 0 = l₂.getD i 0) : l₁ = l₂ := by
  induction l₁ generalizing l₂ with
  | nil => cases l₂ with
    | nil => rfl
    | cons b bs => simp at hlen
  | cons a as ih =>
    cases l₂ with
    | nil => simp at hlen
    | cons b bs =>
      have h0 := h 0 (by simp)
      simp only [List.getD_cons_zero] at h0
      have htail : as = bs := by
        apply ih
        · simpa using hlen
        · intro i hi
          have := h (i + 1) (by simpa using Nat.succ_lt_succ hi)
          simpa using this
      rw [h0, htail]

/-- **C1** (amended). `ShapedArray.equals` is structural on the abstraction
level (which constructor built the value) and the shape alone; the dtype does
not participate.  The spec's claim that two abstract values agreeing on shape
but differing in dtype are unequal fails on the source (see
`C1_equals_ignores_dtype`). -/
theorem C1_equals_level_shape (a b : ShapedArray) :
    ShapedArray.equals a b = true ↔ (a.isConcrete = b.isConcrete ∧ a.shape = b.shape) := by
  unfold ShapedArray.equals
  constructor
  · intro h
    simp only [Bool.or_eq_true, decide_eq_true_eq, Bool.and_eq_true, beq_iff_eq,
      List.all_eq_true, List.mem_range] at h
    rcases h with h | ⟨⟨hc, hlen⟩, hsh⟩
    · subst h; exact ⟨rfl, rfl⟩
    · refine ⟨hc, list_eq_of_length_getD hlen ?_⟩
      intro i hi
      simpa using hsh i hi
  · rintro ⟨hc, hsh⟩
    simp only [Bool.or_eq_true, decide_eq_true_eq, Bool.and_eq_true, beq_iff_eq,
      List.all_eq_true, List.mem_range]
    right
    exact ⟨⟨hc, by rw [hsh]⟩, fun i hi => by rw [hsh]⟩

/-- **C1** (counterexample).  Two `ShapedArray`s with equal shapes but
different dtypes compare equal under `ShapedArray.equals`, contradicting the
claim that equality requires equal dtypes. -/
theorem C1_equals_ignores_dtype :
    ShapedArray.equals ⟨false, [2, 3], DTy.float32⟩ ⟨false, [2, 3], DTy.int32⟩ = true ∧
      (DTy.float32 ≠ DTy.int32) := by
  constructor
  · decide
  · decide

/-! ## C2 / C3 / C9: the interpreter stack — `findTopTrace`, `fullRaise`, `bind`

`MainTrace` is `{level, traceType, globalData}` in the source.  JavaScript
object identity (`Object.is`) is modelled by an `oid` field: distinct
allocations receive distinct `oid`s, so identity coincides with structural
equality of the record.  The `traceType` constructor is modelled as a numeric
tag (`0` is `EvalTrace`), `globalData` as an optional integer.

A concrete `Trace` object is `new main.traceType(main)`: it is determined by
its `main` plus the per-class methods `pure` / `lift` / `processPrimitive`
(and the per-tracer `fullLower`).  Those methods belong to trace subclasses
outside this file's claims, so the embedding passes them as parameters;
`bind`, `findTopTrace` and `fullRaise` themselves are translated directly. -/

/-- The `MainTrace` record from the source; `oid` models JavaScript object
identity. -/
structure MainTrace where
  oid : Nat
  level : Nat
  traceType : Nat
  globalData : Option Int
  deriving DecidableEq, Repr

/-- A tracer: `_trace.main` plus an opaque payload identity. -/
structure Tracer where
  main : MainTrace
  tid : Nat
  deriving DecidableEq, Repr

/-- Type `TracerValue = Tracer | number | boolean`; numbers and booleans are the
non-`Tracer` branch of `instanceof Tracer`. -/
inductive TracerValue where
  | tracer (t : Tracer)
  | lit (x : Int)
  deriving DecidableEq, Repr

/-- Errors thrown by `fullRaise`. -/
inductive RaiseError where
  | cantLift (valLevel traceLevel : Nat)
  | differentTraces (valMain traceMain : MainTrace)
  deriving DecidableEq, Repr

/-- Function `findTopTrace` from the source.  `bottom` is `traceStack[0]` (the only
stack entry the function reads); `dyn` is the module-level `dynamicTrace`.
Returns the `MainTrace` from which the `Trace` object is instantiated. -/
def findTopTrace (bottom : MainTrace) (dyn : Option MainTrace)
    (xs : List TracerValue) : MainTrace :=
  let topMain := xs.foldl
    (fun top x => match x with
      | .tracer t => if t.main.level > top.level then t.main else top
      | .lit _ => top)
    bottom
  match dyn with
  | some d => if d.level > topMain.level then d else topMain
  | none => topMain

section TraceOps

variable (pureOp : MainTrace → Int → Tracer)
variable (liftOp : MainTrace → Tracer → Tracer)

/-- Function `fullRaise(trace, val)` from the source, with the `Trace` object
represented by its `main` and its `pure` / `lift` methods. -/
def fullRaise (trace : MainTrace) (val : TracerValue) : Except RaiseError Tracer :=
  match val with
  | .lit x => .ok (pureOp trace x)
  | .tracer t =>
    if t.main = trace then .ok t
    else if t.main.level < trace.level then .ok (liftOp trace t)
    else if t.main.level > trace.level then .error (.cantLift t.main.level trace.level)
    else .error (.differentTraces t.main trace)

variable {P : Type}
variable (processOp : MainTrace → String → List Tracer → P → List Tracer)
variable (lowerOp : Tracer → Tracer)

/-- Function `bind(prim, args, params)` from the source: find the top trace, raise each
argument into it, process the primitive, and `fullLower` every output. -/
def bind (bottom : MainTrace) (dyn : Option MainTrace) (prim : String)
    (args : List TracerValue) (params : P) : Except RaiseError (List Tracer) := do
  let top := findTopTrace bottom dyn args
  let tracers ← args.mapM (fullRaise pureOp liftOp top)
  let outs := processOp top prim tracers params
  return outs.map lowerOp

end TraceOps

/-- The level of a tracer argument (`none` for literals). -/
def tracerLevel : TracerValue → Option Nat
  | .tracer t => some t.main.level
  | .lit _ => none

/-- The maximum trace level among tracer arguments, `0` if there are none. -/
def maxTracerLevel (xs : List TracerValue) : Nat :=
  xs.foldl
    (fun m x => match x with
      | .tracer t => Nat.max m t.main.level
      | .lit _ => m)
    0

theorem findTopTrace_foldl_level (xs : List TracerValue) (b : MainTrace) :
    (xs.foldl
      (fun top x => match x with
        | .tracer t => if t.main.level > top.level then t.main else top
        | .lit _ => top)
      b).level
    = xs.foldl
        (fun m x => match x with
          | .tracer t => Nat.max m t.main.level
          | .lit _ => m)
        b.level := by
  induction xs generalizing b with
  | nil => rfl
  | cons x rest ih =>
    cases x with
    | lit v => simpa using ih b
    | tracer t =>
      simp only [List.foldl_cons]
      by_cases h : t.main.level > b.level
      · rw [if_pos h, ih]
        congr 1
        simp only [Nat.max_def]
        split_ifs <;> omega
      · rw [if_neg h, ih]
        congr 1
        simp only [Nat.max_def]
        split_ifs <;> omega

theorem maxTracerLevel_foldl (xs : List TracerValue) (n : Nat) :
    xs.foldl
      (fun m x => match x with
        | .tracer t => Nat.max m t.main.level
        | .lit _ => m)
      n = Nat.max n (maxTracerLevel xs) := by
  induction xs generalizing n with
  | nil => simp [maxTracerLevel]
  | cons x rest ih =>
    cases x with
    | lit v =>
      simp only [maxTracerLevel, List.foldl_cons]
      rw [ih, ih 0]
      simp only [Nat.max_def]
      split_ifs <;> omega
    | tracer t =>
      simp only [maxTracerLevel, List.foldl_cons]
      rw [ih, ih (Nat.max 0 t.main.level)]
      simp only [Nat.max_def]
      split_ifs <;> omega

/-- The level of the selected top trace, in closed form. -/
theorem findTopTrace_level (bottom : MainTrace) (dyn : Option MainTrace)
    (xs : List TracerValue) (hbot : bottom.level = 0) :
    (findTopTrace bottom dyn xs).level
      = Nat.max (maxTracerLevel xs) ((dyn.map MainTrace.level).getD 0) := by
  unfold findTopTrace
  cases dyn with
  | none =>
    simp only [Option.map_none', Option.getD_none]
    rw [findTopTrace_foldl_level, maxTracerLevel_foldl, hbot]
    simp only [Nat.max_def]
    split_ifs <;> omega
  | some d =>
    simp only [Option.map_some', Option.getD_some]
    have hf := findTopTrace_foldl_level xs bottom
    have hm := maxTracerLevel_foldl xs bottom.level
    by_cases h : d.level >
        (xs.foldl
          (fun top x => match x with
            | .tracer t => if t.main.level > top.level then t.main else top
            | .lit _ => top)
          bottom).level
    · rw [if_pos h]
      rw [hf, hm, hbot] at h
      simp only [Nat.max_def] at h ⊢
      split_ifs at h ⊢ <;> omega
    · rw [if_neg h, hf, hm, hbot]
      rw [hf, hm, hbot] at h
      simp only [Nat.max_def] at h ⊢
      split_ifs at h ⊢ <;> omega

/-- Every tracer argument's level is bounded by the foldl-selected level. -/
theorem findTopTrace_ge_args (bottom : MainTrace) (dyn : Option MainTrace)
    (xs : List TracerValue) :
    ((xs.filterMap tracerLevel).all
      fun l => l ≤ (findTopTrace bottom dyn xs).level) = true := by
  simp only [List.all_eq_true, List.mem_filterMap, decide_eq_true_eq]
  rintro l ⟨x, hx, hl⟩
  cases x with
  | lit v => simp [tracerLevel] at hl
  | tracer t =>
    simp only [tracerLevel, Option.some.injEq] at hl
    subst hl
    have hbase : ∀ (rest : List TracerValue) (b : MainTrace),
        b.level ≤ (rest.foldl
          (fun top x => match x with
            | .tracer u => if u.main.level > top.level then u.main else top
            | .lit _ => top)
          b).level := by
      intro rest
      induction rest with
      | nil => intro b; exact Nat.le_refl _
      | cons y ys ih =>
        intro b
        cases y with
        | lit v => simpa using ih b
        | tracer u =>
          simp only [List.foldl_cons]
          by_cases h : u.main.level > b.level
          · rw [if_pos h]
            exact Nat.le_trans (Nat.le_of_lt h) (ih u.main)
          · rw [if_neg h]
            exact ih b
    have hmem : ∀ (rest : List TracerValue) (b : MainTrace),
        TracerValue.tracer t ∈ rest →
        t.main.level ≤ (rest.foldl
          (fun top x => match x with
            | .tracer u => if u.main.level > top.level then u.main else top
            | .lit _ => top)
          b).level := by
      intro rest
      induction rest with
      | nil => intro b h; simp at h
      | cons y ys ih =>
        intro b hmem
        rcases List.mem_cons.mp hmem with h | h
        · subst h
          simp only [List.foldl_cons]
          by_cases hgt : t.main.level > b.level
          · rw [if_pos hgt]
            exact hbase ys t.main
          · rw [if_neg hgt]
            exact Nat.le_trans (Nat.le_of_not_lt hgt) (hbase ys b)
        · cases y with
          | lit v => simpa using ih b h
          | tracer u =>
            simp only [List.foldl_cons]
            by_cases hgt : u.main.level > b.level
            · rw [if_pos hgt]; exact ih u.main h
            · rw [if_neg hgt]; exact ih b h
    unfold findTopTrace
    cases dyn with
    | none => exact hmem xs bottom hx
    | some d =>
      simp only
      by_cases h : d.level >
          (xs.foldl
            (fun top x => match x with
              | .tracer u => if u.main.level > top.level then u.main else top
              | .lit _ => top)
            bottom).level
      · rw [if_pos h]
        exact Nat.le_trans (hmem xs bottom hx) (Nat.le_of_lt h)
      · rw [if_neg h]
        exact hmem xs bottom hx

/-- Unbundled form of `findTopTrace_ge_args`: the selected level dominates the
level of every tracer argument. -/
theorem findTopTrace_level_ge (bottom : MainTrace) (dyn : Option MainTrace)
    (xs : List TracerValue) (u : Tracer) (h : TracerValue.tracer u ∈ xs) :
    u.main.level ≤ (findTopTrace bottom dyn xs).level := by
  have hall := findTopTrace_ge_args bottom dyn xs
  simp only [List.all_eq_true, List.mem_filterMap, decide_eq_true_eq] at hall
  exact hall u.main.level ⟨.tracer u, h, rfl⟩

theorem except_bind_error {ε α β : Type} (e : ε) (f : α → Except ε β) :
    (Except.error e >>= f) = Except.error e := rfl

theorem except_bind_okk {ε α β : Type} (a : α) (f : α → Except ε β) :
    (Except.ok a >>= f) = f a := rfl

theorem except_pure_def {ε α : Type} (a : α) :
    (pure a : Except ε α) = Except.ok a := rfl

/-- Pointwise characterisation of a successful `List.mapM` over `Except`. -/
theorem mapM_except_ok_pointwise {α β ε : Type} (f : α → Except ε β) (da : α) (db : β) :
    ∀ (xs : List α) (ys : List β), xs.mapM f = .ok ys →
      ys.length = xs.length ∧
        ∀ k, k < xs.length → f (xs.getD k da) = .ok (ys.getD k db) := by
  intro xs
  induction xs with
  | nil =>
    intro ys h
    simp only [List.mapM_nil, except_pure_def] at h
    cases h
    exact ⟨rfl, fun k hk => absurd hk (by simp)⟩
  | cons x rest ih =>
    intro ys h
    rw [List.mapM_cons] at h
    cases hx : f x with
    | error e =>
      rw [hx, except_bind_error] at h
      cases h
    | ok y =>
      rw [hx, except_bind_okk] at h
      cases hrest : rest.mapM f with
      | error e =>
        rw [hrest, except_bind_error] at h
        cases h
      | ok ys' =>
        rw [hrest, except_bind_okk, except_pure_def] at h
        cases h
        obtain ⟨hlen, hpt⟩ := ih ys' hrest
        refine ⟨by simp [hlen], ?_⟩
        intro k hk
        cases k with
        | zero => simpa using hx
        | succ k' =>
          simp only [List.getD_cons_succ]
          exact hpt k' (by simpa using Nat.lt_of_succ_lt_succ hk)

/-- What `fullRaise` does to an argument that the top trace accepts: literals
are `pure`-wrapped, same-trace tracers pass through, lower-level tracers are
`lift`-ed. -/
def raiseSpec (pureOp : MainTrace → Int → Tracer) (liftOp : MainTrace → Tracer → Tracer)
    (top : MainTrace) : TracerValue → Tracer → Prop
  | .lit v, t => t = pureOp top v
  | .tracer u, t =>
    (u.main = top → t = u) ∧
      (u.main ≠ top → u.main.level < top.level ∧ t = liftOp top u)

/-- **C2.** `bind` dispatches to the trace whose level is the maximum of the
argument tracer levels (0 if none) and the `dynamicTrace` level (when set);
every successful call raises each argument into that trace per `raiseSpec`
(lower-level arguments are lifted) and maps `fullLower` over the outputs of
`processPrimitive`. -/
theorem C2_bind_dispatch (pureOp : MainTrace → Int → Tracer)
    (liftOp : MainTrace → Tracer → Tracer) {P : Type}
    (processOp : MainTrace → String → List Tracer → P → List Tracer)
    (lowerOp : Tracer → Tracer) (bottom : MainTrace) (dyn : Option MainTrace)
    (args : List TracerValue) (hbot : bottom.level = 0) :
    ((findTopTrace bottom dyn args).level
        = Nat.max (maxTracerLevel args) ((dyn.map MainTrace.level).getD 0))
    ∧ ∀ (prim : String) (params : P) (outs : List Tracer),
        bind pureOp liftOp processOp lowerOp bottom dyn prim args params = .ok outs →
        ∃ ts, args.mapM (fullRaise pureOp liftOp (findTopTrace bottom dyn args)) = .ok ts
          ∧ ts.length = args.length
          ∧ (∀ k, k < args.length →
              raiseSpec pureOp liftOp (findTopTrace bottom dyn args)
                (args.getD k (.lit 0)) (ts.getD k ⟨⟨0, 0, 0, none⟩, 0⟩))
          ∧ outs = (processOp (findTopTrace bottom dyn args) prim ts params).map lowerOp := by
  refine ⟨findTopTrace_level bottom dyn args hbot, ?_⟩
  intro prim params outs hok
  unfold JaxJS.bind at hok
  dsimp only [] at hok
  cases hmap : args.mapM (fullRaise pureOp liftOp (findTopTrace bottom dyn args)) with
  | error e =>
    rw [hmap, except_bind_error] at hok
    cases hok
  | ok ts =>
    rw [hmap, except_bind_okk, except_pure_def] at hok
    injection hok with hok
    obtain ⟨hlen, hpt⟩ :=
      mapM_except_ok_pointwise (fullRaise pureOp liftOp (findTopTrace bottom dyn args))
        (.lit 0) ⟨⟨0, 0, 0, none⟩, 0⟩ args ts hmap
    refine ⟨ts, rfl, hlen, ?_, hok.symm⟩
    intro k hk
    have hfr := hpt k hk
    set top := findTopTrace bottom dyn args with htop
    cases harg : args.getD k (.lit 0) with
    | lit v =>
      rw [harg] at hfr
      simp only [fullRaise, Except.ok.injEq] at hfr
      exact hfr.symm
    | tracer u =>
      rw [harg] at hfr
      have hb : u.main.level ≤ top.level := by
        apply findTopTrace_level_ge bottom dyn args
        rw [← harg, List.getD_eq_getElem args (.lit 0) hk]
        exact List.getElem_mem hk
      simp only [fullRaise] at hfr
      by_cases heq : u.main = top
      · rw [if_pos heq] at hfr
        simp only [Except.ok.injEq] at hfr
        exact ⟨fun _ => hfr.symm, fun hne => absurd heq hne⟩
      · rw [if_neg heq] at hfr
        by_cases hlt : u.main.level < top.level
        · rw [if_pos hlt] at hfr
          simp only [Except.ok.injEq] at hfr
          exact ⟨fun h => absurd h heq, fun _ => ⟨hlt, hfr.symm⟩⟩
        · rw [if_neg hlt] at hfr
          by_cases hgt : u.main.level > top.level
          · rw [if_pos hgt] at hfr; cases hfr
          · rw [if_neg hgt] at hfr; cases hfr

/-- Concrete `pure` for witnesses: wrap the number in a tracer of the trace. -/
def pureOpC : MainTrace → Int → Tracer := fun m x => ⟨m, x.natAbs⟩

/-- Concrete `lift` for witnesses: rewrap the tracer in the higher trace. -/
def liftOpC : MainTrace → Tracer → Tracer := fun m t => ⟨m, t.tid⟩

/-- Concrete `processPrimitive` for witnesses: the identity rule. -/
def processOpC : MainTrace → String → List Tracer → Unit → List Tracer :=
  fun _ _ ts _ => ts

/-- Concrete `fullLower` for witnesses: the default implementation
(`return this`). -/
def lowerOpC : Tracer → Tracer := id

/-- The reserved bottom of the trace stack:
`{level: 0, traceType: EvalTrace, globalData: null}`. -/
def bottomMain : MainTrace := ⟨0, 0, 0, none⟩

/-- **C2** (witness). A `bind` with one level-1 tracer argument and one
numeric literal dispatches at level 1, passes the tracer through, wraps the
literal with `pure`, and returns the (identity-)processed, lowered outputs. -/
theorem C2_bind_dispatch_witness :
    (bottomMain.level = 0)
    ∧ ((findTopTrace bottomMain none
          [.tracer ⟨⟨1, 1, 1, none⟩, 7⟩, .lit 5]).level
        = Nat.max (maxTracerLevel [.tracer ⟨⟨1, 1, 1, none⟩, 7⟩, .lit 5])
            (((none : Option MainTrace).map MainTrace.level).getD 0))
    ∧ (∃ ts,
        [TracerValue.tracer ⟨⟨1, 1, 1, none⟩, 7⟩, .lit 5].mapM
            (fullRaise pureOpC liftOpC
              (findTopTrace bottomMain none
                [.tracer ⟨⟨1, 1, 1, none⟩, 7⟩, .lit 5])) = .ok ts
          ∧ ts.length = 2
          ∧ (∀ k, k < 2 →
              raiseSpec pureOpC liftOpC
                (findTopTrace bottomMain none
                  [.tracer ⟨⟨1, 1, 1, none⟩, 7⟩, .lit 5])
                ([TracerValue.tracer ⟨⟨1, 1, 1, none⟩, 7⟩, .lit 5].getD k (.lit 0))
                (ts.getD k ⟨⟨0, 0, 0, none⟩, 0⟩))
          ∧ [Tracer.mk ⟨1, 1, 1, none⟩ 7, ⟨⟨1, 1, 1, none⟩, 5⟩]
              = (processOpC
                  (findTopTrace bottomMain none
                    [.tracer ⟨⟨1, 1, 1, none⟩, 7⟩, .lit 5])
                  "mul" ts ()).map lowerOpC) := by
  have h := C2_bind_dispatch pureOpC liftOpC processOpC lowerOpC bottomMain none
    [.tracer ⟨⟨1, 1, 1, none⟩, 7⟩, .lit 5] rfl
  exact ⟨rfl, h.1, h.2 "mul" () [⟨⟨1, 1, 1, none⟩, 7⟩, ⟨⟨1, 1, 1, none⟩, 5⟩] rfl⟩

/-- **C3.** A tracer whose `MainTrace` has been popped (trace stack reduced to
the level-0 eval bottom) is *not* rejected by `bind`: `findTopTrace` selects
the stale `MainTrace` itself as the top trace, the tracer passes `fullRaise`
unchanged (same main), and `processPrimitive` runs.  The level-violation guard
in `fullRaise` (third conjunct) can never fire from `bind`, because the
selected top level dominates every argument level (fourth conjunct). -/
theorem C3_escaped_tracer_is_processed :
    ((findTopTrace bottomMain none [.tracer ⟨⟨1, 1, 1, none⟩, 3⟩]).level = 1)
    ∧ (bind pureOpC liftOpC processOpC lowerOpC bottomMain none "sin"
          [.tracer ⟨⟨1, 1, 1, none⟩, 3⟩] ()
        = .ok [⟨⟨1, 1, 1, none⟩, 3⟩])
    ∧ (fullRaise pureOpC liftOpC bottomMain (.tracer ⟨⟨1, 1, 1, none⟩, 3⟩)
        = .error (.cantLift 1 0))
    ∧ (∀ (bottom : MainTrace) (dyn : Option MainTrace) (args : List TracerValue),
        ((args.filterMap tracerLevel).all
          fun l => l ≤ (findTopTrace bottom dyn args).level) = true) := by
  refine ⟨rfl, ?_, ?_, findTopTrace_ge_args⟩
  · rfl
  · rfl

/-- Helper for C9: raising a list of arguments whose tracer levels are all
bounded by the top level fails with a `Different traces at same level` error
as soon as one tracer sits at the top level but under a different
`MainTrace`. -/
theorem mapM_fullRaise_differentTraces (pureOp : MainTrace → Int → Tracer)
    (liftOp : MainTrace → Tracer → Tracer) (top : MainTrace) :
    ∀ (xs : List TracerValue),
      (∀ u : Tracer, TracerValue.tracer u ∈ xs → u.main.level ≤ top.level) →
      (∃ u : Tracer, TracerValue.tracer u ∈ xs ∧ u.main ≠ top ∧ u.main.level = top.level) →
      ∃ m, xs.mapM (fullRaise pureOp liftOp top) = .error (.differentTraces m top)
        ∧ m.level = top.level ∧ m ≠ top := by
  intro xs
  induction xs with
  | nil =>
    rintro _ ⟨u, hu, _⟩
    simp at hu
  | cons x rest ih =>
    rintro hbound ⟨u, hu, hune, hulvl⟩
    simp only [List.mapM_cons]
    cases x with
    | lit v =>
      have : TracerValue.tracer u ∈ rest := by
        rcases List.mem_cons.mp hu with h | h
        · cases h
        · exact h
      obtain ⟨m, hm, hml, hmn⟩ := ih (fun w hw => hbound w (List.mem_cons_of_mem _ hw))
        ⟨u, this, hune, hulvl⟩
      refine ⟨m, ?_, hml, hmn⟩
      simp only [fullRaise]
      rw [hm]
      rfl
    | tracer w =>
      by_cases hweq : w.main = top
      · have hmem : TracerValue.tracer u ∈ rest := by
          rcases List.mem_cons.mp hu with h | h
          · cases h; exact absurd hweq hune
          · exact h
        obtain ⟨m, hm, hml, hmn⟩ := ih (fun v hv => hbound v (List.mem_cons_of_mem _ hv))
          ⟨u, hmem, hune, hulvl⟩
        refine ⟨m, ?_, hml, hmn⟩
        simp only [fullRaise]
        rw [if_pos hweq, hm]
        rfl
      · by_cases hwlt : w.main.level < top.level
        · have hmem : TracerValue.tracer u ∈ rest := by
            rcases List.mem_cons.mp hu with h | h
            · cases h; omega
            · exact h
          obtain ⟨m, hm, hml, hmn⟩ := ih (fun v hv => hbound v (List.mem_cons_of_mem _ hv))
            ⟨u, hmem, hune, hulvl⟩
          refine ⟨m, ?_, hml, hmn⟩
          simp only [fullRaise]
          rw [if_neg hweq, if_pos hwlt, hm]
          rfl
        · have hwle : w.main.level ≤ top.level := hbound w (List.mem_cons_self _ _)
          have hweq' : w.main.level = top.level := Nat.le_antisymm hwle (Nat.le_of_not_lt hwlt)
          refine ⟨w.main, ?_, hweq', hweq⟩
          simp only [fullRaise]
          rw [if_neg hweq, if_neg hwlt, if_neg (by omega : ¬ w.main.level > top.level)]
          rfl

/-- **C9.** When a tracer argument sits at the same level as the selected top
trace but under a different `MainTrace` object, `bind` fails with the
`Different traces at same level` error instead of processing the primitive. -/
theorem C9_different_traces_at_same_level (pureOp : MainTrace → Int → Tracer)
    (liftOp : MainTrace → Tracer → Tracer) {P : Type}
    (processOp : MainTrace → String → List Tracer → P → List Tracer)
    (lowerOp : Tracer → Tracer) (bottom : MainTrace) (dyn : Option MainTrace)
    (prim : String) (args : List TracerValue) (params : P) (u : Tracer)
    (hmem : TracerValue.tracer u ∈ args)
    (hne : u.main ≠ findTopTrace bottom dyn args)
    (hlvl : u.main.level = (findTopTrace bottom dyn args).level) :
    ∃ m, bind pureOp liftOp processOp lowerOp bottom dyn prim args params
        = .error (.differentTraces m (findTopTrace bottom dyn args))
      ∧ m.level = (findTopTrace bottom dyn args).level
      ∧ m ≠ findTopTrace bottom dyn args := by
  obtain ⟨m, hm, hml, hmn⟩ := mapM_fullRaise_differentTraces pureOp liftOp
    (findTopTrace bottom dyn args) args
    (fun w hw => findTopTrace_level_ge bottom dyn args w hw)
    ⟨u, hmem, hne, hlvl⟩
  refine ⟨m, ?_, hml, hmn⟩
  unfold JaxJS.bind
  dsimp only []
  rw [hm, except_bind_error]

/-- **C9** (witness).  Two tracers owned by two distinct `MainTrace` objects,
both at level 1: `bind` fails with `Different traces at same level`. -/
theorem C9_different_traces_witness :
    ∃ m, bind pureOpC liftOpC processOpC lowerOpC bottomMain none "add"
          [.tracer ⟨⟨1, 1, 1, none⟩, 1⟩, .tracer ⟨⟨2, 1, 1, none⟩, 2⟩] ()
        = .error (.differentTraces m
            (findTopTrace bottomMain none
              [.tracer ⟨⟨1, 1, 1, none⟩, 1⟩, .tracer ⟨⟨2, 1, 1, none⟩, 2⟩]))
      ∧ m.level = (findTopTrace bottomMain none
            [.tracer ⟨⟨1, 1, 1, none⟩, 1⟩, .tracer ⟨⟨2, 1, 1, none⟩, 2⟩]).level
      ∧ m ≠ findTopTrace bottomMain none
            [.tracer ⟨⟨1, 1, 1, none⟩, 1⟩, .tracer ⟨⟨2, 1, 1, none⟩, 2⟩] :=
  C9_different_traces_at_same_level pureOpC liftOpC processOpC lowerOpC
    bottomMain none "add"
    [.tracer ⟨⟨1, 1, 1, none⟩, 1⟩, .tracer ⟨⟨2, 1, 1, none⟩, 2⟩] ()
    ⟨⟨2, 1, 1, none⟩, 2⟩ (by simp) (by decide) rfl

/-! ## C8: the trace stack — `newMain`, scoping, and the LIFO invariant

`newMain` reads `traceStack.length` as the new level, pushes
`{level, traceType, globalData}`, and returns a `Disposable` whose
`Symbol.dispose` pops the stack; callers use `using { main } = newMain(...)`,
so the pop runs on normal return and on a thrown exception alike.  The module
initialiser pushes the level-0 `EvalTrace` bottom outside any `using` scope,
so that entry is never popped.  The scoped-execution combinator `withNewMain`
below is the embedding of one `using` scope: the body is an arbitrary
state-passing computation that may finish normally (`Except.ok`) or throw
(`Except.error`); the dispose pop happens in either case. -/

/-- Function `newMain(traceType, globalData)` from the source: the pushed record and
the new stack.  `oid` is the fresh object identity of the record. -/
def pushNewMain (stack : List MainTrace) (oid traceType : Nat)
    (globalData : Option Int) : MainTrace × List MainTrace :=
  let m : MainTrace := ⟨oid, stack.length, traceType, globalData⟩
  (m, stack ++ [m])

/-- One `using { main } = newMain(...)` scope: push, run the body (which may
return or throw and may itself mutate the stack), then dispose
(`traceStack.pop()`), regardless of the outcome. -/
def withNewMain {E A : Type} (stack : List MainTrace) (oid traceType : Nat)
    (globalData : Option Int)
    (body : MainTrace → List MainTrace → Except E A × List MainTrace) :
    Except E A × List MainTrace :=
  let p := pushNewMain stack oid traceType globalData
  let r := body p.1 p.2
  (r.1, r.2.dropLast)

/-- The stacks reachable from the module-initial stack `[bottomMain]` by
`newMain` pushes and balanced (`using`-scoped) dispose pops.  The bottom entry
is pushed by the module initialiser outside any scope, so a pop only happens
while a pushed entry is present (`1 < length`). -/
inductive ReachableStack : List MainTrace → Prop where
  | init : ReachableStack [bottomMain]
  | push (s : List MainTrace) (oid traceType : Nat) (globalData : Option Int) :
      ReachableStack s → ReachableStack (pushNewMain s oid traceType globalData).2
  | pop (s : List MainTrace) : ReachableStack s → 1 < s.length →
      ReachableStack s.dropLast

theorem reachable_levels : ∀ s, ReachableStack s →
    s.map MainTrace.level = List.range s.length ∧ s.headD bottomMain = bottomMain ∧ s ≠ [] := by
  intro s h
  induction h with
  | init => exact ⟨rfl, rfl, by simp⟩
  | push s oid tt gd hr ih =>
    obtain ⟨hmap, hhead, hne⟩ := ih
    refine ⟨?_, ?_, by simp [pushNewMain]⟩
    · simp only [pushNewMain, List.map_append, List.length_append, List.map_cons,
        List.map_nil, List.length_cons, List.length_nil]
      rw [hmap]
      rw [show s.length + (0 + 1) = s.length + 1 by omega, List.range_succ]
    · cases s with
      | nil => simp at hne
      | cons a rest => simpa [pushNewMain] using hhead
  | pop s hr hl ih =>
    obtain ⟨hmap, hhead, hne⟩ := ih
    have hlen : s.dropLast.length = s.length - 1 := by simp
    refine ⟨?_, ?_, ?_⟩
    · have : (s.map MainTrace.level).dropLast = (List.range s.length).dropLast := by
        rw [hmap]
      rw [← List.map_dropLast] at this
      rw [this, hlen]
      cases s with
      | nil => simp at hne
      | cons a rest =>
        have : (a :: rest).length = rest.length + 1 := by simp
        rw [this, List.range_succ]
        simp
    · cases s with
      | nil => simp at hne
      | cons a rest =>
        cases rest with
        | nil => simp at hl
        | cons b t => simpa using hhead
    · cases s with
      | nil => simp at hne
      | cons a rest =>
        cases rest with
        | nil => simp at hl
        | cons b t => simp

theorem map_eq_range_getD {s : List MainTrace} (h : s.map MainTrace.level = List.range s.length)
    (i : Nat) (hi : i < s.length) : (s.getD i bottomMain).level = i := by
  have h1 : (s.map MainTrace.level).getD i 0 = (List.range s.length).getD i 0 := by rw [h]
  rw [List.getD_eq_getElem _ _ (by simpa using hi), List.getD_eq_getElem _ _ (by simpa using hi)] at h1
  rw [List.getD_eq_getElem _ _ hi]
  simpa using h1

/-- **C8.** The trace stack obeys the LIFO discipline: in every reachable
state, entry `i` has level `i` and the bottom entry is the level-0
`EvalTrace` record; `newMain` assigns level = current stack length; and a
`using`-scope (`withNewMain`) whose body leaves the pushed stack as it found
it restores exactly the pre-push stack — for a normal (`ok`) and a throwing
(`error`) body alike. -/
theorem C8_trace_stack_lifo :
    (∀ s, ReachableStack s →
      (∀ i, i < s.length → (s.getD i bottomMain).level = i) ∧
        s.getD 0 bottomMain = bottomMain ∧ s ≠ [])
    ∧ (∀ (s : List MainTrace) (oid traceType : Nat) (globalData : Option Int),
        (pushNewMain s oid traceType globalData).1.level = s.length)
    ∧ (∀ (E A : Type) (s : List MainTrace) (oid traceType : Nat)
        (globalData : Option Int)
        (body : MainTrace → List MainTrace → Except E A × List MainTrace),
        (∀ m s2, (body m s2).2 = s2) →
        (withNewMain s oid traceType globalData body).2 = s) := by
  refine ⟨?_, ?_, ?_⟩
  · intro s hr
    obtain ⟨hmap, hhead, hne⟩ := reachable_levels s hr
    refine ⟨fun i hi => map_eq_range_getD hmap i hi, ?_, hne⟩
    cases s with
    | nil => simp at hne
    | cons a rest => simpa using hhead
  · intro s oid tt gd
    rfl
  · intro E A s oid tt gd body hbody
    unfold withNewMain
    dsimp only []
    rw [hbody]
    simp [pushNewMain]

/-- **C8** (witness). A concrete reachable stack `[bottom, level-1 entry]`
satisfies the invariant, and a throwing body's scope still restores the
stack. -/
theorem C8_trace_stack_lifo_witness :
    ((∀ i, i < (pushNewMain [bottomMain] 5 2 none).2.length →
        ((pushNewMain [bottomMain] 5 2 none).2.getD i bottomMain).level = i)
      ∧ (pushNewMain [bottomMain] 5 2 none).2.getD 0 bottomMain = bottomMain
      ∧ (pushNewMain [bottomMain] 5 2 none).2 ≠ [])
    ∧ (pushNewMain [bottomMain] 5 2 none).1.level = 1
    ∧ (withNewMain [bottomMain] 5 2 none
        (fun _ s => ((Except.error 42 : Except Nat Unit), s))).2 = [bottomMain] := by
  have h := C8_trace_stack_lifo
  refine ⟨h.1 _ (ReachableStack.push [bottomMain] 5 2 none ReachableStack.init), ?_, ?_⟩
  · exact h.2.1 [bottomMain] 5 2 none
  · exact h.2.2 Nat Unit [bottomMain] 5 2 none _ (fun m s2 => rfl)

/-! ## C7: `reduceSum` — axis normalisation and the backend sum

The wrapper `reduceSum(x, axis)` (source lines 158–170) normalises the axis
parameter: `axis === null` becomes `[0, …, ndim−1]` when `x` is a `Tracer`
(`[...Array(x.aval.shape.length).keys()]`) and `[]` otherwise; then
`bind1(Primitive.ReduceSum, [x], {axis})`.  The eager rule
`implRules[Primitive.ReduceSum]` forwards to the backend `tf.sum(x.data, axis)`.

The backend itself is an external dependency (`@tensorflow/tfjs-core`), so its
reduction is modelled: a tensor is a shape plus a row-major flat data list
(integer entries — the claims do not depend on floating-point rounding), and
`tfSum` sums over the listed axes, keeping the remaining axes. -/

/-- A concrete tensor: shape and row-major flat data. -/
structure Tensor where
  shape : List Nat
  data : List Int
  deriving DecidableEq, Repr

/-- All multi-indices of a shape, in row-major order. -/
def indices : List Nat → List (List Nat)
  | [] => [[]]
  | d :: s => (List.range d).flatMap fun i => (indices s).map (i :: ·)

/-- Row-major flat offset of a multi-index. -/
def flatIndex : List Nat → List Nat → Nat
  | _ :: s, i :: idx => i * s.prod + flatIndex s idx
  | _, _ => 0

/-- The shape with the listed axes removed (`p` is the current position). -/
def shapeDropAxes (axes : List Nat) : List Nat → Nat → List Nat
  | [], _ => []
  | d :: s, p =>
    if p ∈ axes then shapeDropAxes axes s (p + 1)
    else d :: shapeDropAxes axes s (p + 1)

/-- The shape restricted to the listed axes (`p` is the current position). -/
def shapeKeepAxes (axes : List Nat) : List Nat → Nat → List Nat
  | [], _ => []
  | d :: s, p =>
    if p ∈ axes then d :: shapeKeepAxes axes s (p + 1)
    else shapeKeepAxes axes s (p + 1)

/-- Interleave an output index (kept positions) and a reduction index
(removed positions) back into a full multi-index. -/
def mergeIdx (axes : List Nat) : List Nat → Nat → List Nat → List Nat → List Nat
  | [], _, _, _ => []
  | _ :: s, p, oidx, ridx =>
    if p ∈ axes then ridx.headD 0 :: mergeIdx axes s (p + 1) oidx ridx.tail
    else oidx.headD 0 :: mergeIdx axes s (p + 1) oidx.tail ridx

/-- Modelled from the spec: the backend reduction `tf.sum(x, axes)` consumed
by `implRules[Primitive.ReduceSum]` (the `@tensorflow/tfjs-core` kernel is not
part of this repository).  Axes in `axes` are summed over; the remaining axes
are kept, in order, with `keepDims` false. -/
def tfSum (t : Tensor) (axes : List Nat) : Tensor :=
  let outShape := shapeDropAxes axes t.shape 0
  let redShape := shapeKeepAxes axes t.shape 0
  ⟨outShape,
    (indices outShape).map fun oidx =>
      ((indices redShape).map fun ridx =>
        t.data.getD (flatIndex t.shape (mergeIdx axes t.shape 0 oidx ridx)) 0).sum⟩

/-- Axis normalisation in the `reduceSum` wrapper (source lines 158–168):
`null` becomes the full axis list `[0, …, ndim−1]` for tracers and `[]` for
plain numbers/booleans; an explicit list passes through. -/
def reduceSumAxis (isTracer : Bool) (ndim : Nat) : Option (List Nat) → List Nat
  | none => if isTracer then List.range ndim else []
  | some a => a

/-- A tensor is well formed when its flat data has exactly `shape.prod`
entries. -/
def Tensor.wf (t : Tensor) : Prop := t.data.length = t.shape.prod

theorem shapeDropAxes_nil_axes (s : List Nat) (p : Nat) :
    shapeDropAxes [] s p = s := by
  induction s generalizing p with
  | nil => rfl
  | cons d s ih => simp [shapeDropAxes, ih]

theorem shapeKeepAxes_nil_axes (s : List Nat) (p : Nat) :
    shapeKeepAxes [] s p = [] := by
  induction s generalizing p with
  | nil => rfl
  | cons d s ih => simp [shapeKeepAxes, ih]

theorem mergeIdx_nil_axes (s : List Nat) (p : Nat) (oidx ridx : List Nat)
    (hlen : oidx.length = s.length) : mergeIdx [] s p oidx ridx = oidx := by
  induction s generalizing p oidx with
  | nil => cases oidx with
    | nil => rfl
    | cons a as => simp at hlen
  | cons d s ih =>
    cases oidx with
    | nil => simp at hlen
    | cons a as =>
      simp only [mergeIdx, List.not_mem_nil, if_false, List.headD_cons, List.tail_cons]
      rw [ih (p + 1) as (by simpa using hlen)]

theorem shapeDropAxes_range (s : List Nat) (n p : Nat) (h : p + s.length ≤ n) :
    shapeDropAxes (List.range n) s p = [] := by
  induction s generalizing p with
  | nil => rfl
  | cons d s ih =>
    have hp : p ∈ List.range n := by
      rw [List.mem_range]
      simp only [List.length_cons] at h
      omega
    simp only [shapeDropAxes, if_pos hp]
    apply ih
    simp only [List.length_cons] at h
    omega

theorem shapeKeepAxes_range (s : List Nat) (n p : Nat) (h : p + s.length ≤ n) :
    shapeKeepAxes (List.range n) s p = s := by
  induction s generalizing p with
  | nil => rfl
  | cons d s ih =>
    have hp : p ∈ List.range n := by
      rw [List.mem_range]
      simp only [List.length_cons] at h
      omega
    simp only [shapeKeepAxes, if_pos hp]
    rw [ih]
    simp only [List.length_cons] at h
    omega

theorem mergeIdx_range (s : List Nat) (n p : Nat) (oidx ridx : List Nat)
    (h : p + s.length ≤ n) (hlen : ridx.length = s.length) :
    mergeIdx (List.range n) s p oidx ridx = ridx := by
  induction s generalizing p ridx with
  | nil => cases ridx with
    | nil => rfl
    | cons a as => simp at hlen
  | cons d s ih =>
    cases ridx with
    | nil => simp at hlen
    | cons a as =>
      have hp : p ∈ List.range n := by
        rw [List.mem_range]
        simp only [List.length_cons] at h
        omega
      simp only [mergeIdx, if_pos hp, List.headD_cons, List.tail_cons]
      rw [ih (p + 1) as (by simp only [List.length_cons] at h; omega)
        (by simpa using hlen)]

theorem length_of_mem_indices (s : List Nat) :
    ∀ idx, idx ∈ indices s → idx.length = s.length := by
  induction s with
  | nil =>
    intro idx h
    simp only [indices, List.mem_singleton] at h
    simp [h]
  | cons d s ih =>
    intro idx h
    simp only [indices, List.mem_flatMap, List.mem_map] at h
    obtain ⟨i, _, idx', hidx', rfl⟩ := h
    simp [ih idx' hidx']

theorem flatMap_range_blocks (P : Nat) :
    ∀ d, (List.range d).flatMap (fun i => List.range' (i * P) P) = List.range (d * P) := by
  intro d
  induction d with
  | zero => simp
  | succ d ih =>
    rw [List.range_succ, List.flatMap_append, ih]
    simp only [List.flatMap_cons, List.flatMap_nil, List.append_nil]
    rw [show (d + 1) * P = d * P + P by ring, List.range_add,
      List.range'_eq_map_range]

theorem indices_flatIndex (s : List Nat) :
    (indices s).map (flatIndex s) = List.range s.prod := by
  induction s with
  | nil => rfl
  | cons d s ih =>
    simp only [indices, List.map_flatMap]
    have hinner : ∀ i : Nat,
        ((indices s).map (i :: ·)).map (flatIndex (d :: s))
          = List.range' (i * s.prod) s.prod := by
      intro i
      rw [List.map_map]
      have : (flatIndex (d :: s)) ∘ (i :: ·) = fun idx => i * s.prod + flatIndex s idx := by
        funext idx
        simp [flatIndex]
      rw [this, show (fun idx => i * s.prod + flatIndex s idx)
          = (fun m => i * s.prod + m) ∘ flatIndex s from rfl, ← List.map_map, ih,
        List.range'_eq_map_range]
    calc (List.range d).flatMap (fun i => ((indices s).map (i :: ·)).map (flatIndex (d :: s)))
        = (List.range d).flatMap (fun i => List.range' (i * s.prod) s.prod) := by
          apply List.flatMap_congr
          intro i _
          exact hinner i
      _ = List.range (d * s.prod) := flatMap_range_blocks s.prod d
      _ = List.range ((d :: s).prod) := by simp

theorem map_getD_range (l : List Int) :
    (List.range l.length).map (fun i => l.getD i 0) = l := by
  induction l with
  | nil => rfl
  | cons a as ih =>
    rw [show (a :: as).length = as.length + 1 from rfl, List.range_succ_eq_map,
      List.map_cons, List.map_map]
    have h2 : ((fun i => (a :: as).getD i 0) ∘ Nat.succ) = fun i => as.getD i 0 := by
      funext i
      rfl
    rw [h2, ih]
    rfl

theorem map_getD_flatIndex (t : Tensor) (hwf : t.wf) :
    (indices t.shape).map (fun idx => t.data.getD (flatIndex t.shape idx) 0) = t.data := by
  have : (fun idx => t.data.getD (flatIndex t.shape idx) 0)
      = (fun m => t.data.getD m 0) ∘ flatIndex t.shape := rfl
  rw [this, ← List.map_map, indices_flatIndex, ← hwf, map_getD_range]

/-- **C7.** The `reduceSum` wrapper expands a `null` axis to the full list
`[0, …, n−1]` on a rank-`n` tracer (and to `[]` on a plain number); the
backend reduction with `axis = []` is the identity on well-formed tensors; and
the reduction over all axes yields the rank-0 tensor holding the total sum. -/
theorem C7_reduce_sum_axes (n : Nat) (t : Tensor) (hwf : t.wf) :
    reduceSumAxis true n none = List.range n
    ∧ reduceSumAxis false n none = []
    ∧ tfSum t [] = t
    ∧ (tfSum t (List.range t.shape.length)).shape = []
    ∧ (tfSum t (List.range t.shape.length)).data = [t.data.sum] := by
  refine ⟨rfl, rfl, ?_, ?_, ?_⟩
  · unfold tfSum
    dsimp only []
    rw [shapeDropAxes_nil_axes, shapeKeepAxes_nil_axes]
    cases t with
    | mk s d =>
      simp only [Tensor.mk.injEq, true_and]
      have hmap : (indices s).map (fun oidx =>
          ((indices ([] : List Nat)).map fun ridx =>
            d.getD (flatIndex s (mergeIdx [] s 0 oidx ridx)) 0).sum)
          = (indices s).map (fun oidx => d.getD (flatIndex s oidx) 0) := by
        apply List.map_congr_left
        intro oidx hmem
        simp only [indices, List.map_cons, List.map_nil, List.sum_cons, List.sum_nil,
          add_zero]
        rw [mergeIdx_nil_axes s 0 oidx [] (length_of_mem_indices s oidx hmem)]
      rw [hmap]
      exact map_getD_flatIndex ⟨s, d⟩ hwf
  · unfold tfSum
    dsimp only []
    rw [shapeDropAxes_range _ _ 0 (by omega)]
  · unfold tfSum
    dsimp only []
    rw [shapeDropAxes_range _ _ 0 (by omega), shapeKeepAxes_range _ _ 0 (by omega)]
    simp only [indices, List.map_cons, List.map_nil]
    congr 1
    have hmap : (indices t.shape).map (fun ridx =>
        t.data.getD (flatIndex t.shape (mergeIdx (List.range t.shape.length) t.shape 0 [] ridx)) 0)
        = (indices t.shape).map (fun ridx => t.data.getD (flatIndex t.shape ridx) 0) := by
      apply List.map_congr_left
      intro ridx hmem
      rw [mergeIdx_range t.shape t.shape.length 0 [] ridx (by omega)
        (length_of_mem_indices t.shape ridx hmem)]
    rw [hmap, map_getD_flatIndex t hwf]

/-- **C7** (witness).  On the concrete tensor `[[1, 2], [3, 4]]`: `null` axis
on the rank-2 tracer expands to `[0, 1]`, `axis = []` is the identity, and the
full reduction returns the scalar 10. -/
theorem C7_reduce_sum_axes_witness :
    reduceSumAxis true 2 none = [0, 1]
    ∧ tfSum ⟨[2, 2], [1, 2, 3, 4]⟩ [] = ⟨[2, 2], [1, 2, 3, 4]⟩
    ∧ (tfSum ⟨[2, 2], [1, 2, 3, 4]⟩ [0, 1]).shape = []
    ∧ (tfSum ⟨[2, 2], [1, 2, 3, 4]⟩ [0, 1]).data = [10] := by
  have h := C7_reduce_sum_axes 2 ⟨[2, 2], [1, 2, 3, 4]⟩ rfl
  exact ⟨by rw [h.1]; rfl, h.2.2.1, h.2.2.2.1, by rw [show ([0, 1] : List Nat)
    = List.range (Tensor.mk [2, 2] [1, 2, 3, 4]).shape.length by rfl, h.2.2.2.2]; rfl⟩

/-! ## C10: the eager `broadcast` rule

Source (`implRules[Primitive.Broadcast]`, lines 466–478): throw when `shape`
or `axes` is missing; otherwise `expandDims` the input at each axis of
`axes.toSorted()` and `broadcastTo` the target shape.

JavaScript's `Array.prototype.toSorted()` without a comparator sorts by the
UTF-16 order of the elements' string forms — for naturals, lexicographic
order of decimal digit strings (`[10, 2].toSorted()` is `[10, 2]`, since
`"10" < "2"`).  The model sorts by that comparator; the sorted result depends
only on the multiset of axes, which is what the permutation-invariance part
of the claim needs.  `tf.expandDims` and `tf.broadcastTo` belong to the
external backend and are modelled: `expandDims` inserts a unit axis (flat
data unchanged), `broadcastTo` checks the right-aligned compatibility rule of
spec §4.2 and replicates data. -/

/-- Big-endian decimal digits of a natural number (structural, fuelled). -/
def digitsRev : Nat → Nat → List Nat
  | 0, _ => []
  | _ + 1, 0 => []
  | fuel + 1, n + 1 => (n + 1) % 10 :: digitsRev fuel ((n + 1) / 10)

/-- Decimal digit string of a natural, most significant digit first. -/
def digitsBE (n : Nat) : List Nat := (digitsRev n n).reverse

theorem digitsRev_eq_digits : ∀ (fuel n : Nat), n ≤ fuel →
    digitsRev fuel n = Nat.digits 10 n := by
  intro fuel
  induction fuel with
  | zero =>
    intro n h
    interval_cases n
    simp [digitsRev]
  | succ f ih =>
    intro n h
    cases n with
    | zero => simp [digitsRev]
    | succ m =>
      rw [show digitsRev (f + 1) (m + 1) = (m + 1) % 10 :: digitsRev f ((m + 1) / 10) from rfl]
      rw [ih ((m + 1) / 10) (by
        have hd : (m + 1) / 10 < m + 1 := Nat.div_lt_self (Nat.succ_pos m) (by omega)
        omega)]
      exact (Nat.digits_def' (by omega : (1:Nat) < 10) (Nat.succ_pos m)).symm

theorem digitsBE_injective {a b : Nat} (h : digitsBE a = digitsBE b) : a = b := by
  unfold digitsBE at h
  rw [digitsRev_eq_digits a a (Nat.le_refl a), digitsRev_eq_digits b b (Nat.le_refl b)] at h
  have := List.reverse_injective h
  have h2 : Nat.ofDigits 10 (Nat.digits 10 a) = Nat.ofDigits 10 (Nat.digits 10 b) := by rw [this]
  rwa [Nat.ofDigits_digits, Nat.ofDigits_digits] at h2

/-- Lexicographic comparison of digit strings (UTF-16 order of decimal
numerals coincides with numeric order digit by digit). -/
def lexLeB : List Nat → List Nat → Bool
  | [], _ => true
  | _ :: _, [] => false
  | a :: as, b :: bs =>
    if a < b then true else if b < a then false else lexLeB as bs

theorem lexLeB_total : ∀ x y, lexLeB x y = true ∨ lexLeB y x = true := by
  intro x
  induction x with
  | nil => intro y; left; rfl
  | cons a as ih =>
    intro y
    cases y with
    | nil => right; rfl
    | cons b bs =>
      simp only [lexLeB]
      rcases Nat.lt_trichotomy a b with h | h | h
      · left; rw [if_pos h]
      · subst h
        rcases ih bs with h2 | h2
        · left; rw [if_neg (by omega), if_neg (by omega)]; exact h2
        · right; rw [if_neg (by omega), if_neg (by omega)]; exact h2
      · right; rw [if_pos h]

theorem lexLeB_trans : ∀ x y z, lexLeB x y = true → lexLeB y z = true →
    lexLeB x z = true := by
  intro x
  induction x with
  | nil => intro y z _ _; rfl
  | cons a as ih =>
    intro y z hxy hyz
    cases y with
    | nil => simp [lexLeB] at hxy
    | cons b bs =>
      cases z with
      | nil => simp [lexLeB] at hyz
      | cons c cs =>
        simp only [lexLeB] at hxy hyz ⊢
        by_cases hab : a < b
        · have hbc : b ≤ c := by
            by_contra hcon
            rw [if_neg (by omega), if_pos (by omega)] at hyz
            cases hyz
          rw [if_pos (by omega)]
        · by_cases hba : b < a
          · rw [if_neg hab, if_pos hba] at hxy; cases hxy
          · have hab' : a = b := by omega
            subst hab'
            rw [if_neg (by omega), if_neg (by omega)] at hxy
            by_cases hbc : a < c
            · rw [if_pos hbc]
            · by_cases hcb : c < a
              · rw [if_neg hbc, if_pos hcb] at hyz; cases hyz
              · rw [if_neg (by omega), if_neg (by omega)] at hyz ⊢
                exact ih bs cs hxy hyz

theorem lexLeB_antisymm : ∀ x y, lexLeB x y = true → lexLeB y x = true → x = y := by
  intro x
  induction x with
  | nil =>
    intro y _ hyx
    cases y with
    | nil => rfl
    | cons b bs => simp [lexLeB] at hyx
  | cons a as ih =>
    intro y hxy hyx
    cases y with
    | nil => simp [lexLeB] at hxy
    | cons b bs =>
      simp only [lexLeB] at hxy hyx
      by_cases hab : a < b
      · rw [if_neg (by omega), if_pos (by omega)] at hyx; cases hyx
      · by_cases hba : b < a
        · rw [if_neg hab, if_pos hba] at hxy; cases hxy
        · have : a = b := by omega
          subst this
          rw [if_neg (by omega), if_neg (by omega)] at hxy hyx
          rw [ih bs hxy hyx]

/-- The comparator implied by JavaScript's default `toSorted()` on an array
of naturals: decimal-string lexicographic order. -/
def jsLe (a b : Nat) : Prop := lexLeB (digitsBE a) (digitsBE b) = true

instance : DecidableRel jsLe := fun a b =>
  inferInstanceAs (Decidable (lexLeB (digitsBE a) (digitsBE b) = true))

instance : IsTotal Nat jsLe := ⟨fun a b => lexLeB_total (digitsBE a) (digitsBE b)⟩

instance : IsTrans Nat jsLe :=
  ⟨fun a b c => lexLeB_trans (digitsBE a) (digitsBE b) (digitsBE c)⟩

instance : IsAntisymm Nat jsLe :=
  ⟨fun a b h1 h2 => digitsBE_injective (lexLeB_antisymm _ _ h1 h2)⟩

/-- Model of `axes.toSorted()` (sort by the default string comparator).  The
choice of sorting algorithm is immaterial: the output is the unique
`jsLe`-sorted permutation of the input. -/
def jsToSorted (l : List Nat) : List Nat := l.insertionSort jsLe

theorem jsToSorted_perm_inv {l l' : List Nat} (h : l.Perm l') :
    jsToSorted l = jsToSorted l' := by
  apply List.eq_of_perm_of_sorted (r := jsLe)
  · exact (List.perm_insertionSort jsLe l).trans
      (h.trans (List.perm_insertionSort jsLe l').symm)
  · exact List.sorted_insertionSort jsLe l
  · exact List.sorted_insertionSort jsLe l'

/-- Modelled from the spec: the backend `tf.expandDims(x, axis)` — insert a
unit dimension at `axis`; the flat data is unchanged.  (The backend throws on
`axis > rank`; `List.insertIdx` leaves the shape unchanged there, a case no
claim exercises.) -/
def expandDims (t : Tensor) (axis : Nat) : Tensor :=
  ⟨List.insertIdx axis 1 t.shape, t.data⟩

/-- Right-aligned broadcast compatibility (spec §4.2): trailing extents match
or the input extent is 1, and the input rank does not exceed the target. -/
def bcCompat (inS outS : List Nat) : Bool :=
  decide (inS.length ≤ outS.length) &&
    ((List.zip inS.reverse outS.reverse).all fun p => p.1 == p.2 || p.1 == 1)

/-- Modelled from the spec: the backend `tf.broadcastTo(x, shape)` —
replicate data along broadcast dimensions, failing on incompatible shapes. -/
def broadcastTo (t : Tensor) (shape : List Nat) : Option Tensor :=
  if bcCompat t.shape shape then
    some ⟨shape, (indices shape).map fun oidx =>
      t.data.getD
        (flatIndex t.shape
          ((List.zip t.shape (oidx.drop (shape.length - t.shape.length))).map
            fun p => if p.1 = 1 then 0 else p.2))
        0⟩
  else none

/-- Eager rule `implRules[Primitive.Broadcast]` from the source: fail when
`shape` or `axes` is missing, else `expandDims` along `axes.toSorted()` and
`broadcastTo` the target shape (a backend shape failure is an error). -/
def broadcastImplRule (x : Tensor) (shape? axes? : Option (List Nat)) :
    Except String Tensor :=
  match shape?, axes? with
  | some shape, some axes =>
    match broadcastTo ((jsToSorted axes).foldl expandDims x) shape with
    | some r => .ok r
    | none => .error "broadcast: incompatible shapes"
  | _, _ => .error "Must provide shape and axes to broadcast"

/-- The broadcast rule as the claim words it: new axes inserted in ascending
(numeric) sorted order. -/
def broadcastAscendingRule (x : Tensor) (shape? axes? : Option (List Nat)) :
    Except String Tensor :=
  match shape?, axes? with
  | some shape, some axes =>
    match broadcastTo ((axes.insertionSort (· ≤ ·)).foldl expandDims x) shape with
    | some r => .ok r
    | none => .error "broadcast: incompatible shapes"
  | _, _ => .error "Must provide shape and axes to broadcast"

/-- **C10** (counterexample).  With axes `[10, 2]` on a rank-10 input, the
implementation expands along `[10, 2]` (string order: `"10" < "2"`), not in
ascending numeric order `[2, 10]`; the two orders produce different
populated shapes, so the implementation differs from the claim's
ascending-insertion description at this input. -/
theorem C10_broadcast_not_ascending :
    broadcastImplRule ⟨[1, 1, 2, 1, 1, 1, 1, 1, 1, 3], [1, 2, 3, 4, 5, 6]⟩
        (some [1, 1, 1, 2, 1, 1, 1, 1, 1, 1, 1, 3]) (some [10, 2])
      ≠ broadcastAscendingRule ⟨[1, 1, 2, 1, 1, 1, 1, 1, 1, 3], [1, 2, 3, 4, 5, 6]⟩
        (some [1, 1, 1, 2, 1, 1, 1, 1, 1, 1, 1, 3]) (some [10, 2]) := by
  intro h
  have h1 : (broadcastImplRule ⟨[1, 1, 2, 1, 1, 1, 1, 1, 1, 3], [1, 2, 3, 4, 5, 6]⟩
        (some [1, 1, 1, 2, 1, 1, 1, 1, 1, 1, 1, 3]) (some [10, 2])).isOk
      = (broadcastAscendingRule ⟨[1, 1, 2, 1, 1, 1, 1, 1, 1, 3], [1, 2, 3, 4, 5, 6]⟩
        (some [1, 1, 1, 2, 1, 1, 1, 1, 1, 1, 1, 3]) (some [10, 2])).isOk := by rw [h]
  rw [show (broadcastImplRule ⟨[1, 1, 2, 1, 1, 1, 1, 1, 1, 3], [1, 2, 3, 4, 5, 6]⟩
        (some [1, 1, 1, 2, 1, 1, 1, 1, 1, 1, 1, 3]) (some [10, 2])).isOk = false from rfl,
    show (broadcastAscendingRule ⟨[1, 1, 2, 1, 1, 1, 1, 1, 1, 3], [1, 2, 3, 4, 5, 6]⟩
        (some [1, 1, 1, 2, 1, 1, 1, 1, 1, 1, 1, 3]) (some [10, 2])).isOk = true from rfl] at h1
  cases h1

/-- **C10** (amended).  The eager broadcast rule inserts the new axes in the
JavaScript default sort order of `axes` (decimal-string lexicographic, which
is ascending numeric order whenever all axes are single-digit); consequently
the result depends only on the multiset of axes — it is invariant under any
permutation of the axes parameter — and the rule fails when `shape` or `axes`
is missing. -/
theorem C10_broadcast_axes_perm (x : Tensor) (shape : List Nat)
    (axes axes' : List Nat) (h : axes.Perm axes') :
    broadcastImplRule x (some shape) (some axes)
        = broadcastImplRule x (some shape) (some axes')
    ∧ (∀ (y : Tensor) (a : Option (List Nat)),
        broadcastImplRule y none a = .error "Must provide shape and axes to broadcast")
    ∧ (∀ (y : Tensor) (s : List Nat),
        broadcastImplRule y (some s) none = .error "Must provide shape and axes to broadcast") := by
  refine ⟨?_, ?_, ?_⟩
  · unfold broadcastImplRule
    dsimp only []
    rw [jsToSorted_perm_inv h]
  · intro y a
    cases a <;> rfl
  · intro y s
    rfl

/-- **C10** (witness).  Broadcasting a `[2]`-vector to `[2, 2, 1]` with axes
`[1, 2]` equals the same call with axes `[2, 1]`, and the missing-parameter
calls fail. -/
theorem C10_broadcast_axes_perm_witness :
    broadcastImplRule ⟨[2], [5, 7]⟩ (some [2, 2, 1]) (some [1, 2])
        = broadcastImplRule ⟨[2], [5, 7]⟩ (some [2, 2, 1]) (some [2, 1])
    ∧ broadcastImplRule ⟨[2], [5, 7]⟩ none (some [1, 2])
        = .error "Must provide shape and axes to broadcast"
    ∧ broadcastImplRule ⟨[2], [5, 7]⟩ (some [2, 2, 1]) none
        = .error "Must provide shape and axes to broadcast" := by
  have h := C10_broadcast_axes_perm ⟨[2], [5, 7]⟩ [2, 2, 1] [1, 2] [2, 1] (by decide)
  exact ⟨h.1, h.2.1 ⟨[2], [5, 7]⟩ (some [1, 2]), h.2.2 ⟨[2], [5, 7]⟩ [2, 2, 1]⟩

/-! ## C4 / C5 / C6: the jaxpr IR — tracing, printing, flattening, evaluation

The jaxpr machinery (`makeJaxpr`, `Jaxpr.toString`, `Jaxpr.flatten`, the
jaxpr trace) is exercised by the repository's tests
(`src/test/tracing.test.ts`) but its implementation ships in the `@jax-js/jax`
package outside the sources at hand, so it is modelled from the spec (§3,
§4.6, §6, §8), with every behaviour that the golden tests pin down
(character-exact `toString` output, constant folding, flatten snapshots)
taken from those tests.

Representation choices: binder identities are naturals assigned in creation
order (printing derives the letter names from that order, per spec §6);
values are integers (no claim depends on floating-point rounding); the
backend implementation table for base primitives is a parameter of the
evaluator, as spec §6 prescribes (`impl(concrete_inputs, params)`); a `jit`
equation carries its sub-jaxpr directly (its `numConsts` leading inputs are
ordinary inputs here, which is how evaluation treats them). -/

/-- Static type of an IR value: shape and dtype (spec §3, abstract value). -/
structure Aval where
  shape : List Nat
  dtype : DTy
  deriving DecidableEq, Repr

/-- Modelled from the spec: a binder (`Var`) — an SSA name with an attached
abstract value.  The name is a natural, unique per creation order. -/
structure Binder where
  id : Nat
  aval : Aval
  deriving DecidableEq, Repr

/-- An equation input / jaxpr output: a binder reference or a literal. -/
inductive Atom where
  | var (v : Nat)
  | lit (x : Int)
  deriving DecidableEq, Repr

mutual
/-- Modelled from the spec: a `JaxprEqn` — `(outVars, primitive, inAtoms,
params)`; a higher-order `jit` equation carries its nested jaxpr. -/
inductive Eqn where
  | base (outs : List Binder) (prim : String) (ins : List Atom)
      (params : List (String × List Int))
  | jit (outs : List Binder) (j : Jaxpr) (ins : List Atom)

/-- Modelled from the spec: a `Jaxpr` — `(inVars, equations, outAtoms)`. -/
inductive Jaxpr where
  | mk (inVars : List Binder) (eqns : List Eqn) (outs : List Atom)
end

def Jaxpr.inVars : Jaxpr → List Binder
  | .mk ins _ _ => ins

def Jaxpr.eqns : Jaxpr → List Eqn
  | .mk _ es _ => es

def Jaxpr.outAtoms : Jaxpr → List Atom
  | .mk _ _ os => os

/-- The empty evaluation environment. -/
def emptyEnv : Nat → Option Int := fun _ => none

/-- Bind one variable in an environment. -/
def envSet (ρ : Nat → Option Int) (v : Nat) (x : Int) : Nat → Option Int :=
  fun w => if w = v then some x else ρ w

/-- Bind a list of binders to a list of values, pairwise (extra binders or
values are ignored, as a JavaScript `zip`-style walk would). -/
def bindVars : List Binder → List Int → (Nat → Option Int) → (Nat → Option Int)
  | b :: bs, x :: xs, ρ => bindVars bs xs (envSet ρ b.id x)
  | _, _, ρ => ρ

/-- Evaluate an atom: a variable reads the environment, a literal is itself. -/
def evalAtom (ρ : Nat → Option Int) : Atom → Option Int
  | .var v => ρ v
  | .lit x => some x

/-- The backend implementation table consumed by the evaluator (spec §6:
`impl(concrete_inputs, params) → concrete_outputs`, fallible). -/
abbrev ImplTable := String → List Int → List (String × List Int) → Option (List Int)

section JaxprEval

variable (impl : ImplTable)

mutual
/-- Modelled from the spec: evaluation of a jaxpr on an input tuple — bind the
input binders, run the equations in order, read the output atoms. -/
def evalJaxpr (j : Jaxpr) (args : List Int) : Option (List Int) :=
  match j with
  | .mk ins es os =>
    match evalEqns es (bindVars ins args emptyEnv) with
    | some ρ => os.mapM (evalAtom ρ)
    | none => none
termination_by sizeOf j

/-- Run a list of equations in program order, threading the environment. -/
def evalEqns (es : List Eqn) (ρ : Nat → Option Int) : Option (Nat → Option Int) :=
  match es with
  | [] => some ρ
  | e :: rest =>
    match evalEqn e ρ with
    | some ρ2 => evalEqns rest ρ2
    | none => none
termination_by sizeOf es

/-- Run one equation: evaluate the inputs, apply the primitive's `impl` (or
evaluate the nested jaxpr for `jit`), and bind the outputs; the output count
must match the binder count (spec §3, invariant iv). -/
def evalEqn (e : Eqn) (ρ : Nat → Option Int) : Option (Nat → Option Int) :=
  match e with
  | .base outs p ins params =>
    match ins.mapM (evalAtom ρ) with
    | none => none
    | some vs =>
      match impl p vs params with
      | none => none
      | some ws =>
        if ws.length = outs.length then some (bindVars outs ws ρ) else none
  | .jit outs j ins =>
    match ins.mapM (evalAtom ρ) with
    | none => none
    | some vs =>
      match evalJaxpr j vs with
      | none => none
      | some ws =>
        if ws.length = outs.length then some (bindVars outs ws ρ) else none
termination_by sizeOf e
end

end JaxprEval

/-! ### The jaxpr trace (`makeJaxpr`) and the pretty printer -/

/-- State of the jaxpr trace: the next fresh binder id and the equations
emitted so far (in program order). -/
structure TraceState where
  next : Nat
  eqns : List Eqn

/-- A tracer of the jaxpr trace: either a staged variable (payload is a
binder identity, spec §3) or a constant value captured by the eager trace. -/
inductive JTracer where
  | var (id : Nat) (aval : Aval)
  | const (x : Int) (aval : Aval)
  deriving DecidableEq, Repr

def JTracer.aval : JTracer → Aval
  | .var _ a => a
  | .const _ a => a

/-- Turn a tracer into an equation input: variables stay variables, constants
become literal atoms. -/
def toAtom : JTracer → Atom
  | .var i _ => .var i
  | .const x _ => .lit x

/-- The abstract value of a plain scalar literal (the eager trace wraps `2`
as a float32 scalar via the backend's scalar constructor). -/
def scalarAval : Aval := ⟨[], DTy.float32⟩

/-- Right-aligned broadcast of two shapes (spec §4.2). -/
def broadcastShapes (s1 s2 : List Nat) : List Nat :=
  let r1 := s1.reverse
  let r2 := s2.reverse
  ((List.range (Nat.max r1.length r2.length)).map
    fun i => Nat.max (r1.getD i 1) (r2.getD i 1)).reverse

/-- Rank of a dtype in the promotion lattice (spec §4.2). -/
def dtyRank : DTy → Nat
  | .boolean => 0
  | .int32 => 1
  | .float32 => 2
  | .complex64 => 3

/-- Promotion join of two dtypes. -/
def promoteDTy (a b : DTy) : DTy := if dtyRank a ≤ dtyRank b then b else a

/-- Modelled from the spec: the per-primitive `abstractEval` for the
primitives the claims exercise — elementwise unary rules preserve the input
aval; elementwise binary rules broadcast the shapes and promote the dtypes. -/
def abstractEvalPrim (p : String) (as : List Aval) : Aval :=
  match as with
  | [a] => a
  | [a, b] => ⟨broadcastShapes a.shape b.shape, promoteDTy a.dtype b.dtype⟩
  | _ => scalarAval

/-- The values of an all-constant argument list (`none` when any argument is
a staged variable). -/
def allConst : List JTracer → Option (List Int)
  | [] => some []
  | .const x _ :: rest => (allConst rest).map (x :: ·)
  | .var _ _ :: _ => none

/-- Modelled from the spec: one `bind` processed by the jaxpr trace (spec
§4.6) — a bind all of whose arguments are concrete is constant-folded through
the eager trace (`fold` is the backend's eager computation); a bind touching
a jaxpr tracer emits a fresh `JaxprEqn` and returns a fresh tracer. -/
def jaxprTraceBind (fold : String → List Int → Int) (p : String)
    (args : List JTracer) (st : TraceState) : JTracer × TraceState :=
  match allConst args with
  | some vs =>
    (.const (fold p vs) (abstractEvalPrim p (args.map JTracer.aval)), st)
  | none =>
    let aval := abstractEvalPrim p (args.map JTracer.aval)
    (.var st.next aval,
      ⟨st.next + 1, st.eqns ++ [.base [⟨st.next, aval⟩] p (args.map toAtom) []]⟩)

/-- Modelled from the spec: `makeJaxpr` on a unary function — the example
input becomes the tracer of a fresh binder carrying its `ShapedArray`; the
function runs under the jaxpr trace; outputs are collected.  The modelled
fragment closes over no non-input arrays, so `consts` is empty (spec §8,
property 9). -/
def makeJaxpr1 (f : JTracer → TraceState → JTracer × TraceState) (aval : Aval) :
    Jaxpr × List Int :=
  let p := f (.var 0 aval) ⟨1, []⟩
  (.mk [⟨0, aval⟩] p.2.eqns [toAtom p.1], [])

/-- Modelled from the spec: `makeJaxpr` on a nullary function. -/
def makeJaxpr0 (f : TraceState → JTracer × TraceState) : Jaxpr × List Int :=
  let p := f ⟨0, []⟩
  (.mk [] p.2.eqns [toAtom p.1], [])

/-- Binder names in the printed form: `a, b, c, …` in definition order
(binder ids are assigned in definition order, so the name derives from the
id; ids ≥ 26 fall back to a numbered name, never reached by the claims). -/
def varName (id : Nat) : String :=
  if id < 26 then String.singleton (Char.ofNat (97 + id)) else "v" ++ toString id

/-- Rendered dtype.  The repository's golden tests print the full enum value
(`float32`), not the spec's short form (`f32`). -/
def dtyStr : DTy → String
  | .float32 => "float32"
  | .int32 => "int32"
  | .boolean => "bool"
  | .complex64 => "complex64"

def avalStr (a : Aval) : String :=
  dtyStr a.dtype ++ "[" ++ String.intercalate "," (a.shape.map toString) ++ "]"

def binderStr (b : Binder) : String := varName b.id ++ ":" ++ avalStr b.aval

def atomStr : Atom → String
  | .var v => varName v
  | .lit x => toString x

/-- One printed equation line (the nested-jaxpr layout of `jit` equations is
not modelled; no claim depends on it). -/
def eqnStr : Eqn → String
  | .base outs p ins _ =>
    String.intercalate " " (outs.map binderStr) ++ " = " ++ p ++ " " ++
      String.intercalate " " (ins.map atomStr)
  | .jit outs _ ins =>
    String.intercalate " " (outs.map binderStr) ++ " = jit " ++
      String.intercalate " " (ins.map atomStr)

/-- Modelled from the spec: `Jaxpr.toString` — the canonical text form of
spec §6, with the concrete renderings fixed character-by-character by the
golden tests of `src/test/tracing.test.ts` (`{ lambda <binders> .`, a `let`
block indenting continuation lines by six spaces, `in ( <outs> ) }`, and
dtypes printed in full). -/
def jaxprStr : Jaxpr → String
  | .mk ins es os =>
    let outsStr := String.intercalate " " (os.map atomStr)
    "\x7b lambda " ++ String.intercalate " " (ins.map binderStr) ++ " ." ++
      (match es with
       | [] => "\n  ( " ++ outsStr ++ " ) \x7d"
       | e :: rest =>
         "\n  let " ++ eqnStr e ++
           String.join (rest.map fun e2 => "\n      " ++ eqnStr e2) ++
           "\n  in ( " ++ outsStr ++ " ) \x7d")

/-- The eager computation used for constant folding in the modelled fragment
(backend arithmetic on scalars). -/
def foldEager : String → List Int → Int
  | "add", [a, b] => a + b
  | "mul", [a, b] => a * b
  | _, _ => 0

/-- The traced body of the S2 scenario, `(x) => np.multiply(x.add(2), x)`
from the golden test (`tracks a unary function`). -/
def specFnS2 (x : JTracer) (st : TraceState) : JTracer × TraceState :=
  let p := jaxprTraceBind foldEager "add" [x, .const 2 scalarAval] st
  jaxprTraceBind foldEager "mul" [p.1, x] p.2

/-- The traced body of the S1 scenario, `() => np.multiply(2, 2)` from the
golden test (`tracks a nullary function`). -/
def specFnS1 (st : TraceState) : JTracer × TraceState :=
  jaxprTraceBind foldEager "mul" [.const 2 scalarAval, .const 2 scalarAval] st

/-- **C5** (counterexample).  The claim's exact golden string renders the
dtype as `f32`; the repository's golden test (and hence the printer) renders
`float32`, so the printed jaxpr differs from the claimed text. -/
theorem C5_printed_jaxpr_not_f32 :
    jaxprStr (makeJaxpr1 (specFnS2) ⟨[2, 3], DTy.float32⟩).1
      ≠ "\x7b lambda a:f32[2,3] .\n  let b:f32[2,3] = add a 2\n      c:f32[2,3] = mul b a\n  in ( c ) \x7d" := by
  decide

/-- **C5** (amended).  `makeJaxpr((x) => multiply(add(x, 2), x))` on a
float32 `[2,3]` example input prints exactly the golden text with binders
`a, b, c` in definition order and the dtype rendered in full as `float32`. -/
theorem C5_printed_jaxpr_golden :
    jaxprStr (makeJaxpr1 (specFnS2) ⟨[2, 3], DTy.float32⟩).1
      = "\x7b lambda a:float32[2,3] .\n  let b:float32[2,3] = add a 2\n      c:float32[2,3] = mul b a\n  in ( c ) \x7d"
    ∧ (makeJaxpr1 (specFnS2) ⟨[2, 3], DTy.float32⟩).2 = [] := by
  constructor
  · decide
  · rfl

/-- **C6.**  Tracing `() => multiply(2, 2)` constant-folds through the eager
trace: the resulting jaxpr has no input binders, no equations, and the single
output literal `4`; the consts list is empty; the printed form matches the
golden test. -/
theorem C6_nullary_constant_fold :
    makeJaxpr0 (specFnS1) = (.mk [] [] [.lit 4], [])
    ∧ jaxprStr (makeJaxpr0 (specFnS1)).1 = "\x7b lambda  .\n  ( 4 ) \x7d" := by
  constructor
  · rfl
  · decide

/-! ### Flattening (`Jaxpr.flatten`)

Spec §4.6: "A `flatten` operation on a jaxpr inlines all `jit` equations by
substituting their binders; correctness requires α-renaming to keep binders
unique."  The model inlines left to right while α-renaming every binder to a
fresh counter-assigned name (the counter starts above the renamed top-level
inputs; name `0` is reserved and never bound, serving as the image of
variables with no definition in scope).  A read substitution `σ : Nat → Atom`
maps each original variable to the atom that denotes it in the flat program:
renamed variables stay variables, inlined `jit` outputs become the atoms the
sub-jaxpr returned. -/

/-- Apply a read substitution to an atom. -/
def substAtom (σ : Nat → Atom) : Atom → Atom
  | .var v => σ v
  | .lit x => .lit x

/-- Point update of a read substitution. -/
def sigSet (σ : Nat → Atom) (v : Nat) (a : Atom) : Nat → Atom :=
  fun w => if w = v then a else σ w

/-- Bind a list of binders to a list of atoms in a read substitution,
pairwise — the exact analogue of `bindVars` on environments. -/
def bindAtoms : List Binder → List Atom → (Nat → Atom) → (Nat → Atom)
  | b :: bs, a :: as, σ => bindAtoms bs as (sigSet σ b.id a)
  | _, _, σ => σ

/-- Fresh α-renamed copies of a binder list: ids `c, c+1, …`, avals kept. -/
def freshBinders (c : Nat) : List Binder → List Binder
  | [] => []
  | b :: bs => ⟨c, b.aval⟩ :: freshBinders (c + 1) bs

/-- Result of flattening an equation list: next fresh name, the flat
equations, and the final read substitution. -/
structure FlattenRes where
  next : Nat
  eqns : List Eqn
  sub : Nat → Atom

/-- Modelled from the spec: flatten an equation list under a read
substitution.  Base equations are re-emitted with fresh binders; a `jit`
equation is replaced by its (recursively flattened) sub-jaxpr's equations,
with the sub-jaxpr's inputs reading the call's substituted arguments and the
`jit` outputs becoming the sub-jaxpr's substituted output atoms. -/
def flattenEqns : Nat → (Nat → Atom) → List Eqn → FlattenRes
  | c, σ, [] => ⟨c, [], σ⟩
  | c, σ, .base outs p ins params :: rest =>
    let outs2 := freshBinders c outs
    let σ2 := bindAtoms outs (outs2.map fun b => Atom.var b.id) σ
    let r := flattenEqns (c + outs.length) σ2 rest
    ⟨r.next, .base outs2 p (ins.map (substAtom σ)) params :: r.eqns, r.sub⟩
  | c, σ, .jit outs (.mk jins jes jouts) ins :: rest =>
    let ins2 := ins.map (substAtom σ)
    let σin := bindAtoms jins ins2 (fun _ => Atom.var 0)
    let ri := flattenEqns c σin jes
    let outAtoms := jouts.map (substAtom ri.sub)
    let σ2 := bindAtoms outs outAtoms σ
    let r := flattenEqns ri.next σ2 rest
    ⟨r.next, ri.eqns ++ r.eqns, r.sub⟩
termination_by c σ es => sizeOf es

/-- Modelled from the spec: `Jaxpr.flatten` — α-rename the inputs, inline all
`jit` equations, and substitute the outputs. -/
def flatten : Jaxpr → Jaxpr
  | .mk ins es os =>
    let ins2 := freshBinders 1 ins
    let σ0 := bindAtoms ins (ins2.map fun b => Atom.var b.id) (fun _ => Atom.var 0)
    let r := flattenEqns (1 + ins.length) σ0 es
    .mk ins2 r.eqns (os.map (substAtom r.sub))

/-- The variables an equation defines. -/
def defsOf : Eqn → List Nat
  | .base outs _ _ _ => outs.map Binder.id
  | .jit outs _ _ => outs.map Binder.id

/-- The variables a list of equations defines. -/
def defsEqns (es : List Eqn) : List Nat := es.flatMap defsOf

/-- Whether an atom reads only variables in scope. -/
def atomIn (D : List Nat) : Atom → Bool
  | .var v => D.contains v
  | .lit _ => true

mutual
/-- Scoping well-formedness of one equation under the in-scope variable list
`D` (spec §3, jaxpr invariant (i), plus the arity invariants (iv)): inputs
read in-scope variables; a `jit` equation's argument count matches the
sub-jaxpr's inputs, its binder count matches the sub-jaxpr's outputs, and the
sub-jaxpr is closed and well formed over its own inputs. -/
def wfEqn (D : List Nat) : Eqn → Bool
  | .base _ _ ins _ => ins.all (atomIn D)
  | .jit outs (.mk jins jes jouts) ins =>
    ins.all (atomIn D) && (ins.length == jins.length)
      && (outs.length == jouts.length)
      && wfEqns (jins.map Binder.id) jes
      && jouts.all (atomIn (jins.map Binder.id ++ defsEqns jes))
termination_by e => sizeOf e

/-- Scoping well-formedness of a list of equations, threading the scope. -/
def wfEqns (D : List Nat) : List Eqn → Bool
  | [] => true
  | e :: rest => wfEqn D e && wfEqns (D ++ defsOf e) rest
termination_by es => sizeOf es
end

/-- Scoping well-formedness of a closed jaxpr. -/
def wfJaxpr : Jaxpr → Bool
  | .mk ins es os =>
    wfEqns (ins.map Binder.id) es
      && os.all (atomIn (ins.map Binder.id ++ defsEqns es))

/-! ### Helper lemmas for flattening correctness -/

theorem opt_bind_none {α β : Type} (f : α → Option β) :
    ((none : Option α) >>= f) = none := rfl

theorem opt_bind_some {α β : Type} (a : α) (f : α → Option β) :
    ((some a : Option α) >>= f) = f a := rfl

theorem opt_pure_def {α : Type} (a : α) : (pure a : Option α) = some a := rfl

/-- Variables mentioned by an atom are below the bound. -/
def atomVarLt : Atom → Nat → Prop
  | .var v, c => v < c
  | .lit _, _ => True

theorem atomVarLt_mono {a : Atom} {c c' : Nat} (h : atomVarLt a c) (hcc : c ≤ c') :
    atomVarLt a c' := by
  cases a with
  | var v => simp only [atomVarLt] at h ⊢; omega
  | lit x => trivial

theorem substAtom_eval {ρ ρf : Nat → Option Int} {σ : Nat → Atom}
    (hR : ∀ v, evalAtom ρf (σ v) = ρ v) (a : Atom) :
    evalAtom ρf (substAtom σ a) = evalAtom ρ a := by
  cases a with
  | var v => exact hR v
  | lit x => rfl

theorem substAtom_sigLt {σ : Nat → Atom} {c : Nat}
    (hσ : ∀ v, atomVarLt (σ v) c) (a : Atom) : atomVarLt (substAtom σ a) c := by
  cases a with
  | var v => exact hσ v
  | lit x => trivial

theorem mapM_substAtom {ρ ρf : Nat → Option Int} {σ : Nat → Atom}
    (hR : ∀ v, evalAtom ρf (σ v) = ρ v) :
    ∀ ins : List Atom,
      (ins.map (substAtom σ)).mapM (evalAtom ρf) = ins.mapM (evalAtom ρ) := by
  intro ins
  induction ins with
  | nil => rfl
  | cons a rest ih =>
    rw [List.map_cons, List.mapM_cons, List.mapM_cons, substAtom_eval hR a, ih]

theorem mapM_option_forall2 {α β : Type} (f : α → Option β) :
    ∀ (l : List α) (ys : List β), l.mapM f = some ys →
      List.Forall₂ (fun a y => f a = some y) l ys := by
  intro l
  induction l with
  | nil =>
    intro ys h
    rw [List.mapM_nil, opt_pure_def] at h
    cases h
    exact .nil
  | cons a rest ih =>
    intro ys h
    rw [List.mapM_cons] at h
    cases hx : f a with
    | none => rw [hx, opt_bind_none] at h; cases h
    | some y =>
      rw [hx, opt_bind_some] at h
      cases hrest : rest.mapM f with
      | none => rw [hrest, opt_bind_none] at h; cases h
      | some ys' =>
        rw [hrest, opt_bind_some, opt_pure_def] at h
        cases h
        exact .cons hx (ih ys' hrest)

theorem mapM_option_isSome {α β : Type} (f : α → Option β) :
    ∀ l : List α, (∀ a ∈ l, (f a).isSome = true) → (l.mapM f).isSome = true := by
  intro l
  induction l with
  | nil => intro _; rfl
  | cons a rest ih =>
    intro h
    rw [List.mapM_cons]
    cases hx : f a with
    | none =>
      have := h a (List.mem_cons_self _ _)
      rw [hx] at this
      cases this
    | some y =>
      rw [opt_bind_some]
      cases hrest : rest.mapM f with
      | none =>
        have := ih fun b hb => h b (List.mem_cons_of_mem _ hb)
        rw [hrest] at this
        cases this
      | some ys => rfl

theorem bindVars_untouched {w : Nat} :
    ∀ (bs : List Binder) (ws : List Int) (ρ : Nat → Option Int),
      (∀ b ∈ bs, w ≠ b.id) → bindVars bs ws ρ w = ρ w := by
  intro bs
  induction bs with
  | nil => intro ws ρ _; cases ws <;> rfl
  | cons b bs ih =>
    intro ws ρ h
    cases ws with
    | nil => rfl
    | cons x xs =>
      rw [show bindVars (b :: bs) (x :: xs) ρ = bindVars bs xs (envSet ρ b.id x) from rfl]
      rw [ih xs _ fun b2 hb2 => h b2 (List.mem_cons_of_mem _ hb2)]
      simp [envSet, h b (List.mem_cons_self _ _)]

theorem bindVars_nonnone {v : Nat} :
    ∀ (bs : List Binder) (ws : List Int) (ρ : Nat → Option Int),
      ρ v ≠ none → bindVars bs ws ρ v ≠ none := by
  intro bs
  induction bs with
  | nil => intro ws ρ h; cases ws <;> exact h
  | cons b bs ih =>
    intro ws ρ h
    cases ws with
    | nil => exact h
    | cons x xs =>
      rw [show bindVars (b :: bs) (x :: xs) ρ = bindVars bs xs (envSet ρ b.id x) from rfl]
      apply ih
      simp only [envSet]
      split
      · exact Option.some_ne_none x
      · exact h

theorem bindVars_binds_all :
    ∀ (bs : List Binder) (ws : List Int) (ρ : Nat → Option Int),
      bs.length = ws.length → ∀ b ∈ bs, bindVars bs ws ρ b.id ≠ none := by
  intro bs
  induction bs with
  | nil => intro ws ρ _ b hb; simp at hb
  | cons b0 bs ih =>
    intro ws ρ hlen b hb
    cases ws with
    | nil => simp at hlen
    | cons x xs =>
      rw [show bindVars (b0 :: bs) (x :: xs) ρ = bindVars bs xs (envSet ρ b0.id x) from rfl]
      rcases List.mem_cons.mp hb with h | h
      · subst h
        apply bindVars_nonnone
        simp [envSet]
      · exact ih xs _ (by simpa using hlen) b h

theorem bindAtoms_eval {ρf : Nat → Option Int} :
    ∀ (bs : List Binder) (as : List Atom) (ws : List Int) (σ : Nat → Atom)
      (ρ : Nat → Option Int),
      List.Forall₂ (fun a w => evalAtom ρf a = some w) as ws →
      (∀ v, evalAtom ρf (σ v) = ρ v) →
      ∀ v, evalAtom ρf (bindAtoms bs as σ v) = bindVars bs ws ρ v := by
  intro bs
  induction bs with
  | nil =>
    intro as ws σ ρ hf hR v
    cases hf with
    | nil => exact hR v
    | cons h1 h2 => exact hR v
  | cons b bs ih =>
    intro as ws σ ρ hf hR v
    cases hf with
    | nil => exact hR v
    | @cons a w as' ws' h1 h2 =>
      rw [show bindAtoms (b :: bs) (a :: as') σ = bindAtoms bs as' (sigSet σ b.id a) from rfl]
      rw [show bindVars (b :: bs) (w :: ws') ρ = bindVars bs ws' (envSet ρ b.id w) from rfl]
      refine ih as' ws' (sigSet σ b.id a) (envSet ρ b.id w) h2 ?_ v
      intro u
      simp only [sigSet, envSet]
      split
      · exact h1
      · exact hR u

theorem bindAtoms_sigLt {c : Nat} :
    ∀ (bs : List Binder) (as : List Atom) (σ : Nat → Atom),
      (∀ v, atomVarLt (σ v) c) → (∀ a ∈ as, atomVarLt a c) →
      ∀ v, atomVarLt (bindAtoms bs as σ v) c := by
  intro bs
  induction bs with
  | nil => intro as σ hσ _ v; cases as <;> exact hσ v
  | cons b bs ih =>
    intro as σ hσ ha v
    cases as with
    | nil => exact hσ v
    | cons a as' =>
      rw [show bindAtoms (b :: bs) (a :: as') σ = bindAtoms bs as' (sigSet σ b.id a) from rfl]
      apply ih as' _ ?_ fun a2 ha2 => ha a2 (List.mem_cons_of_mem _ ha2)
      intro u
      simp only [sigSet]
      split
      · exact ha a (List.mem_cons_self _ _)
      · exact hσ u

theorem freshBinders_length : ∀ (bs : List Binder) (c : Nat),
    (freshBinders c bs).length = bs.length := by
  intro bs
  induction bs with
  | nil => intro c; rfl
  | cons b bs ih => intro c; simp [freshBinders, ih]

theorem freshBinders_id_bounds : ∀ (bs : List Binder) (c : Nat) (b2 : Binder),
    b2 ∈ freshBinders c bs → c ≤ b2.id ∧ b2.id < c + bs.length := by
  intro bs
  induction bs with
  | nil => intro c b2 h; simp [freshBinders] at h
  | cons b bs ih =>
    intro c b2 h
    rw [show freshBinders c (b :: bs) = ⟨c, b.aval⟩ :: freshBinders (c + 1) bs from rfl] at h
    rcases List.mem_cons.mp h with h | h
    · subst h
      exact ⟨Nat.le_refl c, by show c < c + (bs.length + 1); omega⟩
    · have := ih (c + 1) b2 h
      simp only [List.length_cons]
      omega

theorem forall2_fresh :
    ∀ (outs : List Binder) (c : Nat) (ws : List Int) (ρ : Nat → Option Int),
      outs.length = ws.length →
      List.Forall₂
        (fun a w => evalAtom (bindVars (freshBinders c outs) ws ρ) a = some w)
        ((freshBinders c outs).map fun b => Atom.var b.id) ws := by
  intro outs
  induction outs with
  | nil =>
    intro c ws ρ h
    cases ws with
    | nil => exact .nil
    | cons w ws => simp at h
  | cons b outs ih =>
    intro c ws ρ h
    cases ws with
    | nil => simp at h
    | cons w ws =>
      rw [show freshBinders c (b :: outs) = ⟨c, b.aval⟩ :: freshBinders (c + 1) outs from rfl,
        List.map_cons]
      refine .cons ?_ ?_
      · show (bindVars (⟨c, b.aval⟩ :: freshBinders (c + 1) outs) (w :: ws) ρ) c = some w
        rw [show bindVars (⟨c, b.aval⟩ :: freshBinders (c + 1) outs) (w :: ws) ρ
            = bindVars (freshBinders (c + 1) outs) ws (envSet ρ c w) from rfl]
        rw [bindVars_untouched _ _ _ fun b2 hb2 => by
          have := freshBinders_id_bounds outs (c + 1) b2 hb2
          omega]
        simp [envSet]
      · exact ih (c + 1) ws (envSet ρ c w) (by simpa using h)

theorem evalAtom_agree {ρ1 ρ2 : Nat → Option Int} {c : Nat} (a : Atom)
    (ha : atomVarLt a c) (hag : ∀ w, w < c → ρ2 w = ρ1 w) :
    evalAtom ρ2 a = evalAtom ρ1 a := by
  cases a with
  | var v => exact hag v ha
  | lit x => rfl

theorem evalEqns_append (impl : ImplTable) :
    ∀ (l1 l2 : List Eqn) (ρ : Nat → Option Int),
      evalEqns impl (l1 ++ l2) ρ
        = match evalEqns impl l1 ρ with
          | some ρ2 => evalEqns impl l2 ρ2
          | none => none := by
  intro l1
  induction l1 with
  | nil => intro l2 ρ; simp [evalEqns]
  | cons e rest ih =>
    intro l2 ρ
    rw [List.cons_append]
    rw [show evalEqns impl (e :: (rest ++ l2)) ρ
        = match evalEqn impl e ρ with
          | some ρ2 => evalEqns impl (rest ++ l2) ρ2
          | none => none from by rw [evalEqns]]
    rw [show evalEqns impl (e :: rest) ρ
        = match evalEqn impl e ρ with
          | some ρ2 => evalEqns impl rest ρ2
          | none => none from by rw [evalEqns]]
    cases evalEqn impl e ρ with
    | none => rfl
    | some ρ2 => exact ih l2 ρ2

theorem flattenEqns_next_mono : ∀ (c : Nat) (σ : Nat → Atom) (es : List Eqn),
    c ≤ (flattenEqns c σ es).next := by
  intro c σ es
  induction c, σ, es using flattenEqns.induct with
  | case1 c σ =>
    rw [flattenEqns]
  | case2 c σ outs p ins params rest outs2 σ2 ih =>
    rw [flattenEqns]
    dsimp only
    exact Nat.le_trans (Nat.le_add_right c outs.length) ih
  | case3 c σ outs jins jes jouts ins rest ins2 σin ri outAtoms σ2 ihjes1 ihjes2 ihrest =>
    rw [flattenEqns]
    dsimp only
    exact Nat.le_trans ihjes1 ihrest

theorem flattenEqns_sigLt : ∀ (c : Nat) (σ : Nat → Atom) (es : List Eqn),
    1 ≤ c → (∀ v, atomVarLt (σ v) c) →
    ∀ v, atomVarLt ((flattenEqns c σ es).sub v) (flattenEqns c σ es).next := by
  intro c σ es
  induction c, σ, es using flattenEqns.induct with
  | case1 c σ =>
    intro hc hσ v
    rw [flattenEqns]
    exact hσ v
  | case2 c σ outs p ins params rest outs2 σ2 ih =>
    intro hc hσ v
    rw [flattenEqns]
    dsimp only
    apply ih (by omega)
    apply bindAtoms_sigLt
    · intro u
      exact atomVarLt_mono (hσ u) (Nat.le_add_right c outs.length)
    · intro a ha
      rcases List.mem_map.mp ha with ⟨b2, hb2, rfl⟩
      have := freshBinders_id_bounds outs c b2 hb2
      show b2.id < c + outs.length
      omega
  | case3 c σ outs jins jes jouts ins rest ins2 σin ri outAtoms σ2 ihjes1 ihjes2 ihrest =>
    intro hc hσ v
    rw [flattenEqns]
    dsimp only
    have hσin : ∀ u, atomVarLt (σin u) c := by
      apply bindAtoms_sigLt
      · intro u
        show atomVarLt (Atom.var 0) c
        simp only [atomVarLt]
        omega
      · intro a ha
        rcases List.mem_map.mp ha with ⟨a0, _, rfl⟩
        exact substAtom_sigLt hσ a0
    have hri : ∀ u, atomVarLt (ri.sub u) ri.next := ihjes1 hc hσin
    have hmono : c ≤ ri.next := flattenEqns_next_mono c σin jes
    apply ihrest (by omega)
    apply bindAtoms_sigLt
    · intro u
      exact atomVarLt_mono (hσ u) hmono
    · intro a ha
      rcases List.mem_map.mp ha with ⟨a0, _, rfl⟩
      exact substAtom_sigLt hri a0

theorem flattenEqns_writes : ∀ (c : Nat) (σ : Nat → Atom) (es : List Eqn),
    ∀ e ∈ (flattenEqns c σ es).eqns, ∀ v ∈ defsOf e,
      c ≤ v ∧ v < (flattenEqns c σ es).next := by
  intro c σ es
  induction c, σ, es using flattenEqns.induct with
  | case1 c σ =>
    intro e he
    rw [flattenEqns] at he
    simp at he
  | case2 c σ outs p ins params rest outs2 σ2 ih =>
    intro e he v hv
    rw [flattenEqns] at he ⊢
    dsimp only at he ⊢
    simp only [σ2, outs2] at ih
    have hmono : c + outs.length
        ≤ (flattenEqns (c + outs.length)
            (bindAtoms outs (List.map (fun b => Atom.var b.id) (freshBinders c outs)) σ)
            rest).next :=
      flattenEqns_next_mono _ _ _
    rcases List.mem_cons.mp he with he | he
    · subst he
      simp only [defsOf] at hv
      rcases List.mem_map.mp hv with ⟨b2, hb2, rfl⟩
      have := freshBinders_id_bounds outs c b2 hb2
      omega
    · have := ih e he v hv
      omega
  | case3 c σ outs jins jes jouts ins rest ins2 σin ri outAtoms σ2 ihjes1 ihjes2 ihrest =>
    intro e he v hv
    rw [flattenEqns] at he ⊢
    dsimp only at he ⊢
    simp only [ins2, σin, ri, outAtoms, σ2] at ihjes2 ihrest
    have hmono1 : c
        ≤ (flattenEqns c (bindAtoms jins (List.map (substAtom σ) ins) fun x => Atom.var 0)
            jes).next :=
      flattenEqns_next_mono _ _ _
    have hmono2 :
        (flattenEqns c (bindAtoms jins (List.map (substAtom σ) ins) fun x => Atom.var 0)
            jes).next
        ≤ (flattenEqns
            (flattenEqns c (bindAtoms jins (List.map (substAtom σ) ins) fun x => Atom.var 0)
              jes).next
            (bindAtoms outs
              (List.map
                (substAtom
                  (flattenEqns c
                    (bindAtoms jins (List.map (substAtom σ) ins) fun x => Atom.var 0)
                    jes).sub)
                jouts)
              σ)
            rest).next :=
      flattenEqns_next_mono _ _ _
    rcases List.mem_append.mp he with he | he
    · have := ihjes2 e he v hv
      omega
    · have := ihrest e he v hv
      omega

theorem evalEqn_binds (impl : ImplTable) (e : Eqn) (ρ ρ2 : Nat → Option Int)
    (h : evalEqn impl e ρ = some ρ2) :
    (∀ v, ρ v ≠ none → ρ2 v ≠ none) ∧ (∀ v ∈ defsOf e, ρ2 v ≠ none) := by
  cases e with
  | base outs p ins params =>
    rw [evalEqn] at h
    cases hins : ins.mapM (evalAtom ρ) with
    | none => rw [hins] at h; cases h
    | some vs =>
      rw [hins] at h
      dsimp only at h
      cases himpl : impl p vs params with
      | none => rw [himpl] at h; cases h
      | some ws =>
        rw [himpl] at h
        dsimp only at h
        by_cases hlen : ws.length = outs.length
        · rw [if_pos hlen] at h
          injection h with h
          subst h
          refine ⟨fun v hv => bindVars_nonnone outs ws ρ hv, ?_⟩
          intro v hv
          simp only [defsOf] at hv
          rcases List.mem_map.mp hv with ⟨b2, hb2, rfl⟩
          exact bindVars_binds_all outs ws ρ hlen.symm b2 hb2
        · rw [if_neg hlen] at h; cases h
  | jit outs j ins =>
    rw [evalEqn] at h
    cases hins : ins.mapM (evalAtom ρ) with
    | none => rw [hins] at h; cases h
    | some vs =>
      rw [hins] at h
      dsimp only at h
      cases hj : evalJaxpr impl j vs with
      | none => rw [hj] at h; cases h
      | some ws =>
        rw [hj] at h
        dsimp only at h
        by_cases hlen : ws.length = outs.length
        · rw [if_pos hlen] at h
          injection h with h
          subst h
          refine ⟨fun v hv => bindVars_nonnone outs ws ρ hv, ?_⟩
          intro v hv
          simp only [defsOf] at hv
          rcases List.mem_map.mp hv with ⟨b2, hb2, rfl⟩
          exact bindVars_binds_all outs ws ρ hlen.symm b2 hb2
        · rw [if_neg hlen] at h; cases h

theorem evalEqns_binds (impl : ImplTable) : ∀ (es : List Eqn) (ρ ρ2 : Nat → Option Int),
    evalEqns impl es ρ = some ρ2 →
    (∀ v, ρ v ≠ none → ρ2 v ≠ none) ∧ (∀ v ∈ defsEqns es, ρ2 v ≠ none) := by
  intro es
  induction es with
  | nil =>
    intro ρ ρ2 h
    rw [evalEqns] at h
    injection h with h
    subst h
    exact ⟨fun v hv => hv, fun v hv => by simp [defsEqns] at hv⟩
  | cons e rest ih =>
    intro ρ ρ2 h
    rw [evalEqns] at h
    cases he : evalEqn impl e ρ with
    | none => rw [he] at h; cases h
    | some ρ1 =>
      rw [he] at h
      obtain ⟨hpres1, hdefs1⟩ := evalEqn_binds impl e ρ ρ1 he
      obtain ⟨hpres2, hdefs2⟩ := ih ρ1 ρ2 h
      refine ⟨fun v hv => hpres2 v (hpres1 v hv), ?_⟩
      intro v hv
      simp only [defsEqns, List.flatMap_cons, List.mem_append] at hv
      rcases hv with hv | hv
      · exact hpres2 v (hdefs1 v hv)
      · exact hdefs2 v (by simpa [defsEqns] using hv)

theorem evalEqns_nil (impl : ImplTable) (ρ : Nat → Option Int) :
    evalEqns impl [] ρ = some ρ := by
  rw [evalEqns]

theorem evalEqns_cons (impl : ImplTable) (e : Eqn) (rest : List Eqn)
    (ρ : Nat → Option Int) :
    evalEqns impl (e :: rest) ρ
      = match evalEqn impl e ρ with
        | some ρ2 => evalEqns impl rest ρ2
        | none => none := by
  rw [evalEqns]

theorem evalJaxpr_mk (impl : ImplTable) (ins : List Binder) (es : List Eqn)
    (os : List Atom) (args : List Int) :
    evalJaxpr impl (.mk ins es os) args
      = match evalEqns impl es (bindVars ins args emptyEnv) with
        | some ρ => os.mapM (evalAtom ρ)
        | none => none := by
  rw [evalJaxpr]

theorem atomIn_eval_isSome {D : List Nat} {ρ : Nat → Option Int} {a : Atom}
    (ha : atomIn D a = true) (hD : ∀ v ∈ D, ρ v ≠ none) :
    (evalAtom ρ a).isSome = true := by
  cases a with
  | var v =>
    simp only [atomIn] at ha
    rw [show evalAtom ρ (.var v) = ρ v from rfl]
    rw [← Option.ne_none_iff_isSome]
    exact hD v (by simpa using ha)
  | lit x => rfl

theorem mapM_atomIn_isSome {D : List Nat} {ρ : Nat → Option Int} {ins : List Atom}
    (ha : ins.all (atomIn D) = true) (hD : ∀ v ∈ D, ρ v ≠ none) :
    (ins.mapM (evalAtom ρ)).isSome = true := by
  apply mapM_option_isSome
  intro a hmem
  apply atomIn_eval_isSome ?_ hD
  exact (List.all_eq_true.mp ha) a hmem

/-- Core inlining lemma: flattening a well-formed equation list under a read
substitution that simulates the original environment preserves evaluation —
failure maps to failure, success to success with the final read substitution
simulating the final environment, and the flat run only writes names at or
above the counter. -/
theorem flattenEqns_sound (impl : ImplTable) :
    ∀ (c : Nat) (σ : Nat → Atom) (es : List Eqn),
      ∀ (D : List Nat) (ρ ρf : Nat → Option Int),
      1 ≤ c →
      wfEqns D es = true →
      (∀ v ∈ D, ρ v ≠ none) →
      (∀ v, evalAtom ρf (σ v) = ρ v) →
      (∀ v, atomVarLt (σ v) c) →
      ρf 0 = none →
      ((evalEqns impl es ρ = none → evalEqns impl (flattenEqns c σ es).eqns ρf = none)
        ∧ ∀ ρ2, evalEqns impl es ρ = some ρ2 →
            ∃ ρf2, evalEqns impl (flattenEqns c σ es).eqns ρf = some ρf2
              ∧ (∀ v, evalAtom ρf2 ((flattenEqns c σ es).sub v) = ρ2 v)
              ∧ (∀ w, w < c → ρf2 w = ρf w)) := by
  intro c σ es
  induction c, σ, es using flattenEqns.induct with
  | case1 c σ =>
    intro D ρ ρf hc hwf hD hR hσ h0
    rw [flattenEqns]
    dsimp only
    constructor
    · intro hnone
      rw [evalEqns_nil] at hnone
      cases hnone
    · intro ρ2 hsome
      rw [evalEqns_nil] at hsome
      injection hsome with hsome
      subst hsome
      exact ⟨ρf, evalEqns_nil impl ρf, hR, fun w _ => rfl⟩
  | case2 c σ outs p ins params rest outs2 σ2 ih =>
    intro D ρ ρf hc hwf hD hR hσ h0
    rw [flattenEqns]
    dsimp only
    simp only [σ2, outs2] at ih
    rw [wfEqns, Bool.and_eq_true] at hwf
    obtain ⟨hwfe, hwfrest⟩ := hwf
    have hmapeq := mapM_substAtom hR ins
    cases hins : ins.mapM (evalAtom ρ) with
    | none =>
      have horig : evalEqns impl (Eqn.base outs p ins params :: rest) ρ = none := by
        rw [evalEqns_cons, evalEqn, hins]
      have hflat : evalEqns impl
          (Eqn.base (freshBinders c outs) p (List.map (substAtom σ) ins) params
            :: (flattenEqns (c + outs.length)
                (bindAtoms outs (List.map (fun b => Atom.var b.id) (freshBinders c outs)) σ)
                rest).eqns) ρf = none := by
        rw [evalEqns_cons, evalEqn]
        rw [show (List.map (substAtom σ) ins).mapM (evalAtom ρf) = none from by rw [hmapeq, hins]]
      exact ⟨fun _ => hflat, fun ρ2 h2 => absurd (horig ▸ h2) (by simp)⟩
    | some vs =>
      cases himpl : impl p vs params with
      | none =>
        have horig : evalEqns impl (Eqn.base outs p ins params :: rest) ρ = none := by
          rw [evalEqns_cons, evalEqn, hins]
          dsimp only
          rw [himpl]
        have hflat : evalEqns impl
            (Eqn.base (freshBinders c outs) p (List.map (substAtom σ) ins) params
              :: (flattenEqns (c + outs.length)
                  (bindAtoms outs (List.map (fun b => Atom.var b.id) (freshBinders c outs)) σ)
                  rest).eqns) ρf = none := by
          rw [evalEqns_cons, evalEqn]
          rw [show (List.map (substAtom σ) ins).mapM (evalAtom ρf) = some vs from by
            rw [hmapeq, hins]]
          dsimp only
          rw [himpl]
        exact ⟨fun _ => hflat, fun ρ2 h2 => absurd (horig ▸ h2) (by simp)⟩
      | some ws =>
        by_cases hlen : ws.length = outs.length
        · have hOrigEqn : evalEqn impl (Eqn.base outs p ins params) ρ
              = some (bindVars outs ws ρ) := by
            rw [evalEqn, hins]
            dsimp only
            rw [himpl]
            dsimp only
            rw [if_pos hlen]
          have hFlatEqn : evalEqn impl
              (Eqn.base (freshBinders c outs) p (List.map (substAtom σ) ins) params) ρf
              = some (bindVars (freshBinders c outs) ws ρf) := by
            rw [evalEqn]
            rw [show (List.map (substAtom σ) ins).mapM (evalAtom ρf) = some vs from by
              rw [hmapeq, hins]]
            dsimp only
            rw [himpl]
            dsimp only
            rw [if_pos (by rw [freshBinders_length]; exact hlen)]
          have hpres1 : ∀ w, w < c → bindVars (freshBinders c outs) ws ρf w = ρf w := by
            intro w hw
            apply bindVars_untouched
            intro b2 hb2
            have := freshBinders_id_bounds outs c b2 hb2
            omega
          have hR1 : ∀ v, evalAtom (bindVars (freshBinders c outs) ws ρf)
              ((bindAtoms outs (List.map (fun b => Atom.var b.id) (freshBinders c outs)) σ) v)
              = bindVars outs ws ρ v := by
            apply bindAtoms_eval
            · exact forall2_fresh outs c ws ρf hlen.symm
            · intro v
              rw [evalAtom_agree (σ v) (hσ v) hpres1]
              exact hR v
          have hD1 : ∀ v ∈ D ++ defsOf (Eqn.base outs p ins params),
              bindVars outs ws ρ v ≠ none := by
            have hb := evalEqn_binds impl _ ρ _ hOrigEqn
            intro v hv
            rcases List.mem_append.mp hv with hv | hv
            · exact hb.1 v (hD v hv)
            · exact hb.2 v hv
          have hσ1 : ∀ v, atomVarLt
              ((bindAtoms outs (List.map (fun b => Atom.var b.id) (freshBinders c outs)) σ) v)
              (c + outs.length) := by
            apply bindAtoms_sigLt
            · intro u
              exact atomVarLt_mono (hσ u) (Nat.le_add_right c outs.length)
            · intro a ha
              rcases List.mem_map.mp ha with ⟨b2, hb2, rfl⟩
              have := freshBinders_id_bounds outs c b2 hb2
              show b2.id < c + outs.length
              omega
          have h01 : bindVars (freshBinders c outs) ws ρf 0 = none := by
            rw [hpres1 0 (by omega)]
            exact h0
          obtain ⟨ihnone, ihsome⟩ := ih (D ++ defsOf (Eqn.base outs p ins params))
            (bindVars outs ws ρ) (bindVars (freshBinders c outs) ws ρf)
            (by omega) hwfrest hD1 hR1 hσ1 h01
          constructor
          · intro hnone
            rw [evalEqns_cons, hOrigEqn] at hnone
            dsimp only at hnone
            rw [evalEqns_cons, hFlatEqn]
            dsimp only
            exact ihnone hnone
          · intro ρ2 hsome
            rw [evalEqns_cons, hOrigEqn] at hsome
            dsimp only at hsome
            obtain ⟨ρf2, hev, hR2, hpres2⟩ := ihsome ρ2 hsome
            refine ⟨ρf2, ?_, hR2, ?_⟩
            · rw [evalEqns_cons, hFlatEqn]
              dsimp only
              exact hev
            · intro w hw
              rw [hpres2 w (by omega), hpres1 w hw]
        · have horig : evalEqns impl (Eqn.base outs p ins params :: rest) ρ = none := by
            rw [evalEqns_cons, evalEqn, hins]
            dsimp only
            rw [himpl]
            dsimp only
            rw [if_neg hlen]
          have hflat : evalEqns impl
              (Eqn.base (freshBinders c outs) p (List.map (substAtom σ) ins) params
                :: (flattenEqns (c + outs.length)
                    (bindAtoms outs (List.map (fun b => Atom.var b.id) (freshBinders c outs)) σ)
                    rest).eqns) ρf = none := by
            rw [evalEqns_cons, evalEqn]
            rw [show (List.map (substAtom σ) ins).mapM (evalAtom ρf) = some vs from by
              rw [hmapeq, hins]]
            dsimp only
            rw [himpl]
            dsimp only
            rw [if_neg (by rw [freshBinders_length]; exact hlen)]
          exact ⟨fun _ => hflat, fun ρ2 h2 => absurd (horig ▸ h2) (by simp)⟩
  | case3 c σ outs jins jes jouts ins rest ins2 σin ri outAtoms σ2 ihjesL ihjesX ihrest =>
    intro D ρ ρf hc hwf hD hR hσ h0
    rw [flattenEqns]
    dsimp only
    simp only [ins2, σin, ri, outAtoms, σ2] at ihrest
    rw [wfEqns, Bool.and_eq_true] at hwf
    obtain ⟨hwfe, hwfrest⟩ := hwf
    rw [wfEqn, Bool.and_eq_true, Bool.and_eq_true, Bool.and_eq_true,
      Bool.and_eq_true] at hwfe
    obtain ⟨⟨⟨⟨hscope, harityB⟩, houtsB⟩, hwfinner⟩, hjouts⟩ := hwfe
    have harity : ins.length = jins.length := by simpa using harityB
    have houts : outs.length = jouts.length := by simpa using houtsB
    have hmapeq := mapM_substAtom hR ins
    cases hins : ins.mapM (evalAtom ρ) with
    | none =>
      exact absurd (hins ▸ mapM_atomIn_isSome hscope hD) (by simp)
    | some vs =>
      have hf2ins : List.Forall₂ (fun a w => evalAtom ρf a = some w)
          (List.map (substAtom σ) ins) vs := by
        apply mapM_option_forall2
        rw [hmapeq]
        exact hins
      have hlenvi : ins.length = vs.length := (mapM_option_forall2 _ _ _ hins).length_eq
      have hRin : ∀ v, evalAtom ρf ((bindAtoms jins (List.map (substAtom σ) ins) fun x => Atom.var 0) v)
          = bindVars jins vs emptyEnv v := by
        apply bindAtoms_eval
        · exact hf2ins
        · intro v
          show ρf 0 = emptyEnv v
          rw [h0]
          rfl
      have hDin : ∀ v ∈ jins.map Binder.id, bindVars jins vs emptyEnv v ≠ none := by
        intro v hv
        rcases List.mem_map.mp hv with ⟨b2, hb2, rfl⟩
        exact bindVars_binds_all jins vs emptyEnv (by omega) b2 hb2
      have hσin : ∀ v, atomVarLt ((bindAtoms jins (List.map (substAtom σ) ins) fun x => Atom.var 0) v) c := by
        apply bindAtoms_sigLt
        · intro u
          show atomVarLt (Atom.var 0) c
          simp only [atomVarLt]
          omega
        · intro a ha
          rcases List.mem_map.mp ha with ⟨a0, _, rfl⟩
          exact substAtom_sigLt hσ a0
      obtain ⟨innone, insome⟩ := ihjesX (jins.map Binder.id) (bindVars jins vs emptyEnv) ρf
        hc hwfinner hDin hRin hσin h0
      cases hinner : evalEqns impl jes (bindVars jins vs emptyEnv) with
      | none =>
        have horig : evalEqns impl (Eqn.jit outs (Jaxpr.mk jins jes jouts) ins :: rest) ρ
            = none := by
          rw [evalEqns_cons, evalEqn, hins]
          dsimp only
          rw [evalJaxpr_mk, hinner]
        have hflat : evalEqns impl
            ((flattenEqns c (bindAtoms jins (List.map (substAtom σ) ins) fun x => Atom.var 0) jes).eqns
              ++ (flattenEqns (flattenEqns c (bindAtoms jins (List.map (substAtom σ) ins) fun x => Atom.var 0) jes).next
                  (bindAtoms outs (List.map (substAtom (flattenEqns c (bindAtoms jins (List.map (substAtom σ) ins) fun x => Atom.var 0) jes).sub) jouts) σ) rest).eqns) ρf
            = none := by
          rw [evalEqns_append, innone hinner]
        exact ⟨fun _ => hflat, fun ρ2 h2 => absurd (horig ▸ h2) (by simp)⟩
      | some ρj2 =>
        obtain ⟨ρfi, hflati, hRi, hpresi⟩ := insome ρj2 hinner
        have hjbound : ∀ v ∈ jins.map Binder.id ++ defsEqns jes, ρj2 v ≠ none := by
          have hb := evalEqns_binds impl jes _ _ hinner
          intro v hv
          rcases List.mem_append.mp hv with hv | hv
          · exact hb.1 v (hDin v hv)
          · exact hb.2 v hv
        obtain ⟨ws, hws⟩ := Option.isSome_iff_exists.mp (mapM_atomIn_isSome hjouts hjbound)
        have hwslen : jouts.length = ws.length := (mapM_option_forall2 _ _ _ hws).length_eq
        have hOrigEqn : evalEqn impl (Eqn.jit outs (Jaxpr.mk jins jes jouts) ins) ρ
            = some (bindVars outs ws ρ) := by
          rw [evalEqn, hins]
          dsimp only
          rw [evalJaxpr_mk, hinner]
          dsimp only
          rw [hws]
          dsimp only
          rw [if_pos (by omega)]
        have hf2outs : List.Forall₂ (fun a w => evalAtom ρfi a = some w)
            (List.map (substAtom (flattenEqns c (bindAtoms jins (List.map (substAtom σ) ins) fun x => Atom.var 0) jes).sub) jouts) ws := by
          rw [List.forall₂_map_left_iff]
          exact List.Forall₂.imp
            (fun a w h => by rw [substAtom_eval hRi a]; exact h)
            (mapM_option_forall2 _ _ _ hws)
        have hR2 : ∀ v, evalAtom ρfi
            ((bindAtoms outs (List.map (substAtom (flattenEqns c (bindAtoms jins (List.map (substAtom σ) ins) fun x => Atom.var 0) jes).sub) jouts) σ) v)
            = bindVars outs ws ρ v := by
          apply bindAtoms_eval
          · exact hf2outs
          · intro v
            rw [evalAtom_agree (σ v) (hσ v) hpresi]
            exact hR v
        have hD2 : ∀ v ∈ D ++ defsOf (Eqn.jit outs (Jaxpr.mk jins jes jouts) ins),
            bindVars outs ws ρ v ≠ none := by
          have hb := evalEqn_binds impl _ ρ _ hOrigEqn
          intro v hv
          rcases List.mem_append.mp hv with hv | hv
          · exact hb.1 v (hD v hv)
          · exact hb.2 v hv
        have hmono1 : c ≤ (flattenEqns c (bindAtoms jins (List.map (substAtom σ) ins) fun x => Atom.var 0) jes).next := flattenEqns_next_mono _ _ _
        have hσ2 : ∀ v, atomVarLt
            ((bindAtoms outs (List.map (substAtom (flattenEqns c (bindAtoms jins (List.map (substAtom σ) ins) fun x => Atom.var 0) jes).sub) jouts) σ) v) (flattenEqns c (bindAtoms jins (List.map (substAtom σ) ins) fun x => Atom.var 0) jes).next := by
          apply bindAtoms_sigLt
          · intro u
            exact atomVarLt_mono (hσ u) hmono1
          · intro a ha
            rcases List.mem_map.mp ha with ⟨a0, _, rfl⟩
            refine substAtom_sigLt ?_ a0
            exact flattenEqns_sigLt c (bindAtoms jins (List.map (substAtom σ) ins) fun x => Atom.var 0) jes hc hσin
        have h02 : ρfi 0 = none := by
          rw [hpresi 0 (by omega)]
          exact h0
        obtain ⟨rnone, rsome⟩ := ihrest
          (D ++ defsOf (Eqn.jit outs (Jaxpr.mk jins jes jouts) ins))
          (bindVars outs ws ρ) ρfi (by omega) hwfrest hD2 hR2 hσ2 h02
        constructor
        · intro hnone
          rw [evalEqns_cons, hOrigEqn] at hnone
          dsimp only at hnone
          rw [evalEqns_append, hflati]
          dsimp only
          exact rnone hnone
        · intro ρ2 hsome
          rw [evalEqns_cons, hOrigEqn] at hsome
          dsimp only at hsome
          obtain ⟨ρf2, hev, hR3, hpres3⟩ := rsome ρ2 hsome
          refine ⟨ρf2, ?_, hR3, ?_⟩
          · rw [evalEqns_append, hflati]
            dsimp only
            exact hev
          · intro w hw
            rw [hpres3 w (by omega), hpresi w hw]

/-- **C4.**  Flattening preserves semantics: for every well-formed closed
jaxpr `J` (nested `jit` equations included) and every input tuple, evaluating
`J` and evaluating `flatten J` — which inlines all `jit` sub-jaxprs with
α-renamed binders — agree (both fail together or produce equal outputs),
for every backend implementation table. -/
theorem C4_flatten_semantics (impl : ImplTable) (J : Jaxpr) (x : List Int)
    (hwf : wfJaxpr J = true) (hlen : x.length = J.inVars.length) :
    evalJaxpr impl (flatten J) x = evalJaxpr impl J x := by
  cases J with
  | mk ins es os =>
    rw [wfJaxpr, Bool.and_eq_true] at hwf
    obtain ⟨hwfes, houtscope⟩ := hwf
    rw [flatten]
    rw [evalJaxpr_mk, evalJaxpr_mk]
    have hlen2 : x.length = ins.length := by simpa [Jaxpr.inVars] using hlen
    have hpres0 : ∀ w, w < 1 → bindVars (freshBinders 1 ins) x emptyEnv w = emptyEnv w := by
      intro w hw
      apply bindVars_untouched
      intro b2 hb2
      have := freshBinders_id_bounds ins 1 b2 hb2
      omega
    have h00 : bindVars (freshBinders 1 ins) x emptyEnv 0 = none := hpres0 0 (by omega)
    have hR0 : ∀ v, evalAtom (bindVars (freshBinders 1 ins) x emptyEnv)
        ((bindAtoms ins (List.map (fun b => Atom.var b.id) (freshBinders 1 ins))
          fun x => Atom.var 0) v)
        = bindVars ins x emptyEnv v := by
      apply bindAtoms_eval
      · exact forall2_fresh ins 1 x emptyEnv hlen2.symm
      · intro v
        show bindVars (freshBinders 1 ins) x emptyEnv 0 = emptyEnv v
        rw [h00]
        rfl
    have hD0 : ∀ v ∈ ins.map Binder.id, bindVars ins x emptyEnv v ≠ none := by
      intro v hv
      rcases List.mem_map.mp hv with ⟨b2, hb2, rfl⟩
      exact bindVars_binds_all ins x emptyEnv hlen2.symm b2 hb2
    have hσ0 : ∀ v, atomVarLt
        ((bindAtoms ins (List.map (fun b => Atom.var b.id) (freshBinders 1 ins))
          fun x => Atom.var 0) v)
        (1 + ins.length) := by
      apply bindAtoms_sigLt
      · intro u
        show atomVarLt (Atom.var 0) (1 + ins.length)
        simp only [atomVarLt]
        omega
      · intro a ha
        rcases List.mem_map.mp ha with ⟨b2, hb2, rfl⟩
        have := freshBinders_id_bounds ins 1 b2 hb2
        show b2.id < 1 + ins.length
        omega
    obtain ⟨hnone, hsome⟩ := flattenEqns_sound impl (1 + ins.length)
      (bindAtoms ins (List.map (fun b => Atom.var b.id) (freshBinders 1 ins))
        fun x => Atom.var 0)
      es (ins.map Binder.id)
      (bindVars ins x emptyEnv) (bindVars (freshBinders 1 ins) x emptyEnv)
      (by omega) hwfes hD0 hR0 hσ0 h00
    cases horig : evalEqns impl es (bindVars ins x emptyEnv) with
    | none =>
      rw [hnone horig]
    | some ρ2 =>
      obtain ⟨ρf2, hev, hR2, _⟩ := hsome ρ2 horig
      rw [hev]
      dsimp only
      rw [mapM_substAtom hR2 os]

/-- The arithmetic implementation table used by the concrete programs. -/
def implArith : ImplTable := fun p vs _ =>
  match p, vs with
  | "add", [a, b] => some [a + b]
  | "mul", [a, b] => some [a * b]
  | _, _ => none

/-- A closed jaxpr with a nested `jit` equation, mirroring the flatten golden
test: `f(x) = jit(y => y * y)(x) + 2`. -/
def jaxprW : Jaxpr :=
  .mk [⟨0, scalarAval⟩]
    [.jit [⟨1, scalarAval⟩]
        (.mk [⟨0, scalarAval⟩]
          [.base [⟨1, scalarAval⟩] "mul" [.var 0, .var 0] []]
          [.var 1])
        [.var 0],
     .base [⟨2, scalarAval⟩] "add" [.var 1, .lit 2] []]
    [.var 2]

/-- **C4** (witness).  The concrete nested-jit jaxpr is well formed, its
flattening evaluates like it does, and at input `3` both produce `3·3+2=11`. -/
theorem C4_flatten_semantics_witness :
    wfJaxpr jaxprW = true
    ∧ evalJaxpr implArith (flatten jaxprW) [3] = evalJaxpr implArith jaxprW [3]
    ∧ evalJaxpr implArith jaxprW [3] = some [11] := by
  have hwf : wfJaxpr jaxprW = true := by
    simp only [jaxprW, wfJaxpr, wfEqns, wfEqn, defsEqns, defsOf, atomIn]
    decide
  refine ⟨hwf, C4_flatten_semantics implArith jaxprW [3] hwf rfl, ?_⟩
  simp only [jaxprW, evalJaxpr, evalEqns, evalEqn]
  decide

end JaxJS
